import Mathlib

/-!
Verification of the Hopcroft–Karp maximum bipartite matching engine
(`BipartiteGraph` in `changes9.cpp`).

The C++ class is embedded shallowly: the engine state is a structure `BG`
holding the two part sizes, the adjacency lists and the `dist`, `pairU`,
`pairV` vectors (modelled as functions out of `Nat`; the C++ vectors have
length `nLeft + 1` resp. `nRight + 1`, and every access goes through a
bounds-checked accessor `idx`/`upd` that returns an error on an
out-of-range index, mirroring the allocated vector length).  Loops are
translated to fuelled recursions in an `Except` monad: running out of fuel
is a distinct error from an out-of-bounds access, so non-termination and
memory-safety questions stay separate.  `INF` is the literal `1e9` of the
source.
-/

namespace HK

def INF : Nat := 1000000000

inductive HkErr where
  | oob  : HkErr
  | fuel : HkErr
deriving DecidableEq

abbrev M (α : Type) := Except HkErr α

/-- Engine state: part sizes, adjacency, and the three work vectors of
`BipartiteGraph` (`dist`, `pairU`, `pairV`).  The C++ vectors have length
`nLeft + 1` (for `adj`, `dist`, `pairU`) and `nRight + 1` (for `pairV`);
here they are total functions and every access made by the algorithm is
bounds-checked against those lengths. -/
structure BG where
  nLeft  : Nat
  nRight : Nat
  adj    : Nat → List Nat
  dist   : Nat → Nat
  pairU  : Nat → Nat
  pairV  : Nat → Nat

/-- The constructor `BipartiteGraph(leftCount, rightCount)`. -/
def mkBG (leftCount rightCount : Nat) : BG :=
  { nLeft := leftCount, nRight := rightCount,
    adj := fun _ => [], dist := fun _ => INF,
    pairU := fun _ => 0, pairV := fun _ => 0 }

/-- The validation test of `addEdge`: `u < 1 || u > nLeft || v < 1 || v > nRight`.
When it holds the C++ code reports the invalid edge on `cerr` and returns
without touching any state. -/
def invalidEdge (g : BG) (u v : Int) : Bool :=
  u < 1 || u > (g.nLeft : Int) || v < 1 || v > (g.nRight : Int)

/-- `addEdge(u, v)`: append `v` to `adj[u]` unless the edge is invalid. -/
def addEdge (g : BG) (u v : Int) : BG :=
  if invalidEdge g u v then g
  else { g with adj := Function.update g.adj u.toNat (g.adj u.toNat ++ [v.toNat]) }

/-- An engine as the collaborator builds it: constructed with the two part
sizes, then fed a sequence of `addEdge` calls. -/
def buildBG (l r : Nat) (es : List (Int × Int)) : BG :=
  es.foldl (fun g e => addEdge g e.1 e.2) (mkBG l r)

/-- Bounds-checked read of a vector of length `n`. -/
def idx {α : Type} (n : Nat) (f : Nat → α) (i : Nat) : M α :=
  if i < n then .ok (f i) else .error .oob

/-- Bounds-checked write to a vector of length `n`. -/
def upd {α : Type} (n : Nat) (f : Nat → α) (i : Nat) (x : α) : M (Nat → α) :=
  if i < n then .ok (Function.update f i x) else .error .oob

/-- The initialisation loop of `bfs`: for `u = 1 .. nLeft`, seed
`dist[u] = 0` and push `u` when `pairU[u] == 0`, else `dist[u] = INF`.
`cnt` counts the remaining iterations. -/
def bfsInitA (g : BG) : Nat → Nat → (Nat → Nat) → List Nat → M ((Nat → Nat) × List Nat)
  | 0, _, d, q => .ok (d, q)
  | cnt + 1, u, d, q => do
    let pu ← idx (g.nLeft + 1) g.pairU u
    if pu = 0 then do
      let d1 ← upd (g.nLeft + 1) d u 0
      bfsInitA g cnt (u + 1) d1 (q ++ [u])
    else do
      let d1 ← upd (g.nLeft + 1) d u INF
      bfsInitA g cnt (u + 1) d1 q

/-- The neighbour scan of one popped vertex `u` in `bfs`:
`for v : adj[u] { if (dist[pairV[v]] == INF) { dist[pairV[v]] = dist[u] + 1; push(pairV[v]) } }`. -/
def bfsNbrs (g : BG) (u : Nat) : List Nat → (Nat → Nat) → List Nat → M ((Nat → Nat) × List Nat)
  | [], d, q => .ok (d, q)
  | v :: vs, d, q => do
    let w ← idx (g.nRight + 1) g.pairV v
    let dw ← idx (g.nLeft + 1) d w
    if dw = INF then do
      let du ← idx (g.nLeft + 1) d u
      let d1 ← upd (g.nLeft + 1) d w (du + 1)
      bfsNbrs g u vs d1 (q ++ [w])
    else
      bfsNbrs g u vs d q

/-- The FIFO loop of `bfs`.  A popped `u` is expanded when
`dist[u] < dist[0]`.  `fuel` bounds the number of iterations; exhausting
it yields the distinguished `fuel` error. -/
def bfsLoop (g : BG) : Nat → (Nat → Nat) → List Nat → M (Nat → Nat)
  | 0, _, _ => .error .fuel
  | _ + 1, d, [] => .ok d
  | fuel + 1, d, u :: q => do
    let du ← idx (g.nLeft + 1) d u
    let d0 ← idx (g.nLeft + 1) d 0
    if du < d0 then do
      let vs ← idx (g.nLeft + 1) g.adj u
      let dq ← bfsNbrs g u vs d q
      bfsLoop g fuel dq.1 dq.2
    else
      bfsLoop g fuel d q

/-- Fuel budget for the BFS queue loop; generous (the loop needs at most
`3 * nLeft + 3` iterations when every assigned layer stays below `INF`). -/
def bfsFuel (g : BG) : Nat := (g.nLeft + 2) * (g.nLeft + 2)

/-- `bfs()`: seed the queue and the distances, set `dist[0] = INF`, run the
FIFO loop, and report whether `dist[0] != INF`. -/
def bfs (g : BG) : M (Bool × BG) := do
  let dq ← bfsInitA g g.nLeft 1 g.dist []
  let d1 ← upd (g.nLeft + 1) dq.1 0 INF
  let d2 ← bfsLoop g (bfsFuel g) d1 dq.2
  let d0 ← idx (g.nLeft + 1) d2 0
  .ok (d0 != INF, { g with dist := d2 })

/-- The neighbour loop of `dfs(u)`:
`for v : adj[u] { if (dist[pairV[v]] == dist[u] + 1 && dfs(pairV[v])) { pairU[u] = v; pairV[v] = u; return true } }`
followed by `dist[u] = INF; return false` when the list is exhausted.
`rec` is the recursive call on `pairV[v]`. -/
def dfsScan (rec : Nat → BG → M (Bool × BG)) (u : Nat) : List Nat → BG → M (Bool × BG)
  | [], g => do
    let d1 ← upd (g.nLeft + 1) g.dist u INF
    .ok (false, { g with dist := d1 })
  | v :: vs, g => do
    let w ← idx (g.nRight + 1) g.pairV v
    let dw ← idx (g.nLeft + 1) g.dist w
    let du ← idx (g.nLeft + 1) g.dist u
    if dw = du + 1 then do
      let bs ← rec w g
      if bs.1 then do
        let pu ← upd (bs.2.nLeft + 1) bs.2.pairU u v
        let pv ← upd (bs.2.nRight + 1) bs.2.pairV v u
        .ok (true, { bs.2 with pairU := pu, pairV := pv })
      else
        dfsScan rec u vs bs.2
    else
      dfsScan rec u vs g

/-- `dfs(u)` with explicit recursion fuel: `if (u == 0) return true;` then
scan the neighbour list. -/
def dfsGo : Nat → Nat → BG → M (Bool × BG)
  | 0, _, _ => .error .fuel
  | fuel + 1, u, g =>
    if u = 0 then .ok (true, g)
    else do
      let vs ← idx (g.nLeft + 1) g.adj u
      dfsScan (dfsGo fuel) u vs g

/-- Fuel budget for one `dfs` call tree: the recursion depth is bounded by
the largest finite layer plus two. -/
def dfsFuel (g : BG) : Nat := g.nLeft + 2

/-- The augmentation pass of one phase:
`for u = 1 .. nLeft: if (pairU[u] == 0 && dfs(u)) matching++`.
`cnt` counts the remaining iterations, `m` is the running match count. -/
def phaseScan (fuelD : Nat) : Nat → Nat → Nat → BG → M (Nat × BG)
  | 0, _, m, g => .ok (m, g)
  | cnt + 1, u, m, g => do
    let pu ← idx (g.nLeft + 1) g.pairU u
    if pu = 0 then do
      let bs ← dfsGo fuelD u g
      if bs.1 then phaseScan fuelD cnt (u + 1) (m + 1) bs.2
      else phaseScan fuelD cnt (u + 1) m bs.2
    else
      phaseScan fuelD cnt (u + 1) m g

/-- The phase loop of `maxMatching()`: `while (bfs()) { augmentation pass }`. -/
def mmLoop : Nat → Nat → BG → M (Nat × BG)
  | 0, _, _ => .error .fuel
  | fuel + 1, m, g => do
    let bres ← bfs g
    if bres.1 then do
      let ms ← phaseScan (dfsFuel bres.2) bres.2.nLeft 1 m bres.2
      mmLoop fuel ms.1 ms.2
    else
      .ok (m, bres.2)

/-- Fuel budget for the phase loop: each phase that passes the BFS test
augments the matching at least once, so `nLeft + 2` iterations suffice. -/
def mmFuel (g : BG) : Nat := g.nLeft + 2

/-- `maxMatching()`: run the phase loop starting from a zero counter. -/
def maxMatching (g : BG) : M (Nat × BG) := mmLoop (mmFuel g) 0 g

/-- `getMatchingPairs()`: every `(u, pairU[u])` with `pairU[u] != 0`, for
`u = 1 .. nLeft` in increasing order. -/
def getMatchingPairs (g : BG) : List (Nat × Nat) :=
  (List.range' 1 g.nLeft).filterMap fun u =>
    if g.pairU u ≠ 0 then some (u, g.pairU u) else none

/-! ### Engine states reachable through the public interface -/

/-- States reachable through the public interface: construction, edge
insertion, and completed runs of the matching computation. -/
inductive Reachable : BG → Prop where
  | mk : ∀ l r, Reachable (mkBG l r)
  | add : ∀ g u v, Reachable g → Reachable (addEdge g u v)
  | run : ∀ g k g', Reachable g → maxMatching g = .ok (k, g') → Reachable g'

/-! ### State invariants -/

/-- Every stored neighbour is a right vertex in range (guaranteed by the
`addEdge` validation). -/
def adjBound (g : BG) : Prop := ∀ u v, v ∈ g.adj u → 1 ≤ v ∧ v ≤ g.nRight

/-- `pairU` values are right vertex ids or the sentinel `0`. -/
def puRange (g : BG) : Prop := ∀ u, g.pairU u ≤ g.nRight

/-- `pairV` values are left vertex ids or the sentinel `0`. -/
def pvRange (g : BG) : Prop := ∀ v, g.pairV v ≤ g.nLeft

/-- The two pairing maps are mutually inverse on matched vertices. -/
def ValidM (g : BG) : Prop :=
  (∀ u, 1 ≤ u → u ≤ g.nLeft → g.pairU u ≠ 0 → g.pairV (g.pairU u) = u) ∧
  (∀ v, 1 ≤ v → v ≤ g.nRight → g.pairV v ≠ 0 → g.pairU (g.pairV v) = v)

/-- Every matched pair is one of the stored edges. -/
def MatchedFromAdj (g : BG) : Prop :=
  ∀ u, 1 ≤ u → u ≤ g.nLeft → g.pairU u ≠ 0 → g.pairU u ∈ g.adj u

/-- The pairing-state invariant maintained by the engine. -/
def Inv (g : BG) : Prop :=
  adjBound g ∧ puRange g ∧ pvRange g ∧ ValidM g ∧ MatchedFromAdj g

/-- Validity with one possible stale slot: inside a successful `dfs`
rewind, the right vertex `e` freed at the current frame still holds its
old back-pointer; the caller one level up repairs it.  `ValidExceptAt g 0`
is plain validity. -/
def ValidExceptAt (g : BG) (e : Nat) : Prop :=
  (∀ x, 1 ≤ x → x ≤ g.nLeft → g.pairU x ≠ 0 → g.pairV (g.pairU x) = x) ∧
  (∀ v, 1 ≤ v → v ≤ g.nRight → v ≠ e → g.pairV v ≠ 0 → g.pairU (g.pairV v) = v)

/-- The two structural components never touched by the algorithm. -/
def SameG (g h : BG) : Prop :=
  h.nLeft = g.nLeft ∧ h.nRight = g.nRight ∧ h.adj = g.adj

/-! ### The matching notions the specification talks about -/

/-- `(u, v)` is an edge of the stored graph. -/
def edgeMem (g : BG) (u v : Nat) : Prop := 1 ≤ u ∧ u ≤ g.nLeft ∧ v ∈ g.adj u

/-- A matching of the stored graph: a set of edges no two of which share
a left or a right endpoint. -/
def IsMatching (g : BG) (P : Finset (Nat × Nat)) : Prop :=
  (∀ p ∈ P, edgeMem g p.1 p.2) ∧
  (∀ p ∈ P, ∀ q ∈ P, p.1 = q.1 → p = q) ∧
  (∀ p ∈ P, ∀ q ∈ P, p.2 = q.2 → p = q)

/-- The number of matched left vertices in a state. -/
def mcount (g : BG) : Nat :=
  ((Finset.Icc 1 g.nLeft).filter fun u => g.pairU u ≠ 0).card

/-- The set of matched pairs realised in a state. -/
def matchedPairs (g : BG) : Finset (Nat × Nat) :=
  ((Finset.Icc 1 g.nLeft).filter fun u => g.pairU u ≠ 0).image fun u => (u, g.pairU u)

/-- The number of vertices (among `0 .. nLeft`) with a finite layer. -/
def kcount (g : BG) (d : Nat → Nat) : Nat :=
  ((Finset.range (g.nLeft + 1)).filter fun x => d x ≠ INF).card

/-- A left vertex (or the sentinel `0`) that can reach the sentinel along
the layered graph: the structure `dfs` searches.  `pairV v = 0` for an
unmatched right vertex `v` lets a step end at the sentinel. -/
inductive Reach0 (g : BG) : Nat → Prop where
  | zero : Reach0 g 0
  | step : ∀ u v, 1 ≤ u → u ≤ g.nLeft → v ∈ g.adj u →
      g.dist (g.pairV v) = g.dist u + 1 → Reach0 g (g.pairV v) → Reach0 g u

/-! ### Monadic plumbing -/

@[simp] theorem okBind {α β : Type} (a : α) (f : α → M β) :
    (Except.ok a >>= f : M β) = f a := rfl

@[simp] theorem errBind {α β : Type} (e : HkErr) (f : α → M β) :
    (Except.error e >>= f : M β) = .error e := rfl

theorem idx_lt {α : Type} {n i : Nat} (f : Nat → α) (h : i < n) :
    idx n f i = .ok (f i) := by simp [idx, h]

theorem upd_lt {α : Type} {n i : Nat} (f : Nat → α) (x : α) (h : i < n) :
    upd n f i x = .ok (Function.update f i x) := by simp [upd, h]

/-! ### Constructed engines -/

theorem mkBG_inv (l r : Nat) : Inv (mkBG l r) := by
  refine ⟨?_, ?_, ?_, ⟨?_, ?_⟩, ?_⟩ <;> intro u <;> simp [mkBG]

theorem invalidEdge_false {g : BG} {u v : Int} (hc : invalidEdge g u v = false) :
    1 ≤ u.toNat ∧ u.toNat ≤ g.nLeft ∧ 1 ≤ v.toNat ∧ v.toNat ≤ g.nRight := by
  simp only [invalidEdge, Bool.or_eq_false_iff, decide_eq_false_iff_not, not_lt] at hc
  omega

theorem addEdge_inv {g : BG} (h : Inv g) (u v : Int) : Inv (addEdge g u v) := by
  obtain ⟨ha, hpu, hpv, hvm, hma⟩ := h
  unfold addEdge
  by_cases hc : invalidEdge g u v
  · simpa [hc] using ⟨ha, hpu, hpv, hvm, hma⟩
  · rw [Bool.not_eq_true] at hc
    obtain ⟨h1, h2, h3, h4⟩ := invalidEdge_false hc
    simp only [hc, Bool.false_eq_true, if_false]
    refine ⟨?_, hpu, hpv, hvm, ?_⟩
    all_goals dsimp only [adjBound, MatchedFromAdj]
    · intro x w hw
      by_cases hx : x = u.toNat
      · subst hx
        simp only [Function.update_same] at hw
        rcases List.mem_append.1 hw with hw | hw
        · exact ha _ _ hw
        · simp only [List.mem_singleton] at hw
          subst hw
          exact ⟨h3, h4⟩
      · rw [Function.update_noteq hx] at hw
        exact ha _ _ hw
    · intro x hx1 hx2 hx3
      by_cases hx : x = u.toNat
      · subst hx
        simp only [Function.update_same]
        exact List.mem_append_left _ (hma _ hx1 hx2 hx3)
      · rw [Function.update_noteq hx]
        exact hma _ hx1 hx2 hx3

theorem addEdge_pres (g : BG) (u v : Int) :
    (addEdge g u v).nLeft = g.nLeft ∧ (addEdge g u v).nRight = g.nRight ∧
    (addEdge g u v).pairU = g.pairU ∧ (addEdge g u v).pairV = g.pairV ∧
    (addEdge g u v).dist = g.dist := by
  unfold addEdge
  split <;> simp

theorem foldl_addEdge_pres (es : List (Int × Int)) :
    ∀ g : BG, (es.foldl (fun g e => addEdge g e.1 e.2) g).nLeft = g.nLeft ∧
      (es.foldl (fun g e => addEdge g e.1 e.2) g).nRight = g.nRight ∧
      (es.foldl (fun g e => addEdge g e.1 e.2) g).pairU = g.pairU ∧
      (es.foldl (fun g e => addEdge g e.1 e.2) g).pairV = g.pairV ∧
      (es.foldl (fun g e => addEdge g e.1 e.2) g).dist = g.dist := by
  induction es with
  | nil => intro g; simp
  | cons e es ih =>
    intro g
    obtain ⟨i1, i2, i3, i4, i5⟩ := ih (addEdge g e.1 e.2)
    obtain ⟨a1, a2, a3, a4, a5⟩ := addEdge_pres g e.1 e.2
    simp only [List.foldl_cons]
    exact ⟨i1.trans a1, i2.trans a2, i3.trans a3, i4.trans a4, i5.trans a5⟩

theorem buildBG_pres (l r : Nat) (es : List (Int × Int)) :
    (buildBG l r es).nLeft = l ∧ (buildBG l r es).nRight = r ∧
    (buildBG l r es).pairU = (fun _ => 0) ∧ (buildBG l r es).pairV = (fun _ => 0) ∧
    (buildBG l r es).dist = (fun _ => INF) := by
  have := foldl_addEdge_pres es (mkBG l r)
  simpa [buildBG, mkBG] using this

theorem buildBG_inv (l r : Nat) (es : List (Int × Int)) : Inv (buildBG l r es) := by
  unfold buildBG
  have h0 : Inv (mkBG l r) := mkBG_inv l r
  generalize mkBG l r = g at h0 ⊢
  induction es generalizing g with
  | nil => exact h0
  | cons e es ih => exact ih _ (addEdge_inv h0 e.1 e.2)

theorem buildBG_reachable (l r : Nat) (es : List (Int × Int)) :
    Reachable (buildBG l r es) := by
  unfold buildBG
  have h0 : Reachable (mkBG l r) := .mk l r
  generalize mkBG l r = g at h0 ⊢
  induction es generalizing g with
  | nil => exact h0
  | cons e es ih => exact ih _ (.add g e.1 e.2 h0)

theorem mcount_buildBG (l r : Nat) (es : List (Int × Int)) :
    mcount (buildBG l r es) = 0 := by
  obtain ⟨h1, _, h3, _, _⟩ := buildBG_pres l r es
  simp [mcount, h1, h3]

theorem getMatchingPairs_buildBG (l r : Nat) (es : List (Int × Int)) :
    getMatchingPairs (buildBG l r es) = [] := by
  obtain ⟨h1, _, h3, _, _⟩ := buildBG_pres l r es
  simp [getMatchingPairs, h1, h3]

/-! ### The BFS initialisation loop -/

theorem bfsInitA_spec (g : BG) :
    ∀ cnt u d q, u + cnt = g.nLeft + 1 →
    ∃ d', bfsInitA g cnt u d q =
        .ok (d', q ++ (List.range' u cnt).filter (fun x => g.pairU x == 0)) ∧
      (∀ x, x < u ∨ g.nLeft < x → d' x = d x) ∧
      (∀ x, u ≤ x → x ≤ g.nLeft → d' x = if g.pairU x = 0 then 0 else INF) := by
  intro cnt
  induction cnt with
  | zero =>
    intro u d q h
    exact ⟨d, by simp [bfsInitA], fun x _ => rfl, fun x hux hxn => by omega⟩
  | succ cnt ih =>
    intro u d q h
    have hu : u < g.nLeft + 1 := by omega
    by_cases hp : g.pairU u = 0
    · obtain ⟨d', hrun, hout, hin⟩ := ih (u + 1) (Function.update d u 0) (q ++ [u]) (by omega)
      refine ⟨d', ?_, ?_, ?_⟩
      · rw [bfsInitA, idx_lt _ hu, okBind, if_pos hp, upd_lt _ _ hu, okBind, hrun,
          List.range'_succ, List.filter_cons_of_pos (by simp [hp]), List.append_assoc]
        rfl
      · intro x hx
        rw [hout x (by omega), Function.update_noteq (by omega)]
      · intro x hux hxn
        rcases Nat.eq_or_lt_of_le hux with hx | hx
        · rw [← hx, hout u (by omega), Function.update_same, if_pos hp]
        · exact hin x hx hxn
    · obtain ⟨d', hrun, hout, hin⟩ := ih (u + 1) (Function.update d u INF) q (by omega)
      refine ⟨d', ?_, ?_, ?_⟩
      · rw [bfsInitA, idx_lt _ hu, okBind, if_neg hp, upd_lt _ _ hu, okBind, hrun,
          List.range'_succ, List.filter_cons_of_neg (by simp [hp])]
      · intro x hx
        rw [hout x (by omega), Function.update_noteq (by omega)]
      · intro x hux hxn
        rcases Nat.eq_or_lt_of_le hux with hx | hx
        · rw [← hx, hout u (by omega), Function.update_same, if_neg hp]
        · exact hin x hx hxn

/-! ### Counting finite layers -/

theorem kcount_update (g : BG) (d : Nat → Nat) (x val : Nat) (hx : x ≤ g.nLeft)
    (hinf : d x = INF) (hval : val ≠ INF) :
    kcount g (Function.update d x val) = kcount g d + 1 := by
  have hins : ((Finset.range (g.nLeft + 1)).filter fun y => Function.update d x val y ≠ INF)
      = insert x ((Finset.range (g.nLeft + 1)).filter fun y => d y ≠ INF) := by
    ext y
    by_cases hyx : y = x
    · subst hyx
      simp [Function.update_same, hval, Nat.lt_succ_of_le hx]
    · simp [Function.update_noteq hyx, hyx]
  rw [kcount, hins, Finset.card_insert_of_not_mem (by simp [hinf]), kcount]

theorem kcount_mono (g : BG) {d d' : Nat → Nat} (h : ∀ x, d x ≠ INF → d' x = d x) :
    kcount g d ≤ kcount g d' := by
  refine Finset.card_le_card fun y hy => ?_
  simp only [Finset.mem_filter, Finset.mem_range] at hy ⊢
  exact ⟨hy.1, by rw [h y hy.2]; exact hy.2⟩

theorem kcount_le (g : BG) (d : Nat → Nat) : kcount g d ≤ g.nLeft + 1 := by
  calc kcount g d ≤ (Finset.range (g.nLeft + 1)).card := Finset.card_le_card (Finset.filter_subset _ _)
  _ = g.nLeft + 1 := Finset.card_range _

/-! ### The BFS neighbour scan -/

theorem bfsNbrs_spec (g : BG) (u : Nat) (hu : u ≤ g.nLeft) (hpv : pvRange g) :
    ∀ vs d q, (∀ v ∈ vs, v ≤ g.nRight) → d u ≠ INF →
    ∃ d' ws, bfsNbrs g u vs d q = .ok (d', q ++ ws) ∧
      (∀ x, d' x ≠ d x → d x = INF ∧ x ≤ g.nLeft ∧ d' x = d u + 1 ∧ ∃ v ∈ vs, g.pairV v = x) ∧
      (∀ x ∈ ws, x ≤ g.nLeft ∧ d' x = d u + 1 ∧ d x = INF) ∧
      (d u + 1 ≠ INF → ∀ v ∈ vs, d' (g.pairV v) ≠ INF) ∧
      (d u + 1 ≠ INF → kcount g d + ws.length = kcount g d') ∧
      d' u = d u ∧
      (∀ x, d' x ≠ d x → x ∈ ws) := by
  intro vs
  induction vs with
  | nil =>
    intro d q _ _
    exact ⟨d, [], by simp [bfsNbrs], fun x hx => absurd rfl hx,
      by simp, fun _ v hv => absurd hv (List.not_mem_nil v), by simp, rfl,
      fun x hx => absurd rfl hx⟩
  | cons v vs ih =>
    intro d q hvs hdu
    have hv : v < g.nRight + 1 := Nat.lt_succ_of_le (hvs v (List.mem_cons_self v vs))
    have hw : g.pairV v < g.nLeft + 1 := Nat.lt_succ_of_le (hpv v)
    have hu1 : u < g.nLeft + 1 := Nat.lt_succ_of_le hu
    by_cases hcond : d (g.pairV v) = INF
    · -- assignment and push
      have hwu : g.pairV v ≠ u := fun h => hdu (h ▸ hcond)
      set d1 := Function.update d (g.pairV v) (d u + 1) with hd1
      have hd1u : d1 u = d u := Function.update_noteq (fun h => hwu h.symm) _ _
      obtain ⟨d', ws, hrun, hchg, hws, hfin, hcnt, hdu', hmem⟩ :=
        ih d1 (q ++ [g.pairV v]) (fun x hx => hvs x (List.mem_cons_of_mem v hx))
          (by rw [hd1u]; exact hdu)
      refine ⟨d', g.pairV v :: ws, ?_, ?_, ?_, ?_, ?_, ?_, ?_⟩
      · rw [bfsNbrs, idx_lt _ hv, okBind, idx_lt _ hw, okBind, if_pos hcond,
          idx_lt _ hu1, okBind, upd_lt _ _ hw, okBind, hrun, List.append_assoc]
        rfl
      · intro x hx
        by_cases hx1 : d' x = d1 x
        · rw [hx1] at hx ⊢
          have hxw : x = g.pairV v := by
            by_contra hne
            exact hx (Function.update_noteq hne _ _)
          subst hxw
          exact ⟨hcond, hpv v, Function.update_same _ _ _,
            v, List.mem_cons_self v vs, rfl⟩
        · obtain ⟨h1, h2, h3, vv, hvv, hvveq⟩ := hchg x hx1
          refine ⟨?_, h2, by rw [h3, hd1u], vv, List.mem_cons_of_mem v hvv, hvveq⟩
          rw [hd1] at h1
          by_cases hxw : x = g.pairV v
          · exact hxw ▸ hcond
          · rwa [Function.update_noteq hxw] at h1
      · intro x hx
        rcases List.mem_cons.1 hx with hx | hx
        · subst hx
          refine ⟨hpv v, ?_, hcond⟩
          by_cases hchg1 : d' (g.pairV v) = d1 (g.pairV v)
          · rw [hchg1, hd1, Function.update_same]
          · obtain ⟨h1, _, h3, _⟩ := hchg _ hchg1
            rw [h3, hd1u]
        · obtain ⟨h1, h2, h3⟩ := hws x hx
          refine ⟨h1, by rw [h2, hd1u], ?_⟩
          rw [hd1] at h3
          by_cases hxw : x = g.pairV v
          · exact hxw ▸ hcond
          · rwa [Function.update_noteq hxw] at h3
      · intro hsm w hwmem
        rcases List.mem_cons.1 hwmem with hweq | hwmem
        · subst hweq
          intro hcon
          have h1 : ¬ d' (g.pairV w) = d1 (g.pairV w) := by
            rw [hcon, hd1, Function.update_same]
            exact fun h => hsm h.symm
          have h2 := (hchg (g.pairV w) h1).1
          rw [hd1, Function.update_same] at h2
          exact hsm h2
        · exact hfin (by rwa [hd1u]) w hwmem
      · intro hsm
        have hc := hcnt (by rwa [hd1u])
        rw [hd1, kcount_update g d (g.pairV v) (d u + 1) (hpv v) hcond hsm] at hc
        simp only [List.length_cons]
        omega
      · rw [hdu', hd1u]
      · intro x hx
        by_cases hx1 : d' x = d1 x
        · rw [hx1] at hx
          have hxw : x = g.pairV v := by
            by_contra hne
            refine hx ?_
            rw [hd1]
            exact Function.update_noteq hne _ _
          rw [hxw]
          exact List.mem_cons_self _ _
        · exact List.mem_cons_of_mem _ (hmem x hx1)
    · -- target already reached, no push
      obtain ⟨d', ws, hrun, hchg, hws, hfin, hcnt, hdu', hmem⟩ :=
        ih d q (fun x hx => hvs x (List.mem_cons_of_mem v hx)) hdu
      refine ⟨d', ws, ?_, ?_, ?_, ?_, hcnt, hdu', hmem⟩
      · rw [bfsNbrs, idx_lt _ hv, okBind, idx_lt _ hw, okBind, if_neg hcond, hrun]
      · intro x hx
        obtain ⟨h1, h2, h3, vv, hvv, hvveq⟩ := hchg x hx
        exact ⟨h1, h2, h3, vv, List.mem_cons_of_mem v hvv, hvveq⟩
      · exact hws
      · intro hsm w hwmem
        rcases List.mem_cons.1 hwmem with hweq | hwmem
        · subst hweq
          intro hcon
          have := hchg (g.pairV w) (by rw [hcon]; exact fun h => hcond h.symm)
          exact hcond this.1
        · exact hfin hsm w hwmem

/-! ### The BFS queue loop -/

theorem INF_pos : 0 < INF := by norm_num [INF]

theorem kcount_congr (g : BG) {d d' : Nat → Nat}
    (h : ∀ x, x ≤ g.nLeft → d x = d' x) : kcount g d = kcount g d' := by
  unfold kcount
  congr 1
  refine Finset.filter_congr fun y hy => ?_
  rw [Finset.mem_range] at hy
  rw [h y (by omega)]

theorem kcount_lt (g : BG) {d d' : Nat → Nat} {x : Nat} (hx : x ≤ g.nLeft)
    (h1 : d x = INF) (h2 : d' x ≠ INF) (hfr : ∀ y, d y ≠ INF → d' y = d y) :
    kcount g d < kcount g d' := by
  refine Finset.card_lt_card ⟨fun y hy => ?_, fun hsub => ?_⟩
  · simp only [Finset.mem_filter, Finset.mem_range] at hy ⊢
    exact ⟨hy.1, by rw [hfr y hy.2]; exact hy.2⟩
  · have hxmem : x ∈ (Finset.range (g.nLeft + 1)).filter fun y => d' y ≠ INF := by
      simp only [Finset.mem_filter, Finset.mem_range]
      exact ⟨by omega, h2⟩
    have := hsub hxmem
    simp only [Finset.mem_filter] at this
    exact this.2 h1

/-- The invariant of the BFS queue loop: queue entries are in range, all
layers are at most `INF`, exactly the unmatched left vertices carry layer
`0`, every finite layer is below the number of finite layers, and every
positive finite layer has a BFS parent. -/
structure BInv (g : BG) (d : Nat → Nat) (q : List Nat) : Prop where
  qb : ∀ x ∈ q, x ≤ g.nLeft
  dle : ∀ x, x ≤ g.nLeft → d x ≤ INF
  free0 : ∀ x, 1 ≤ x → x ≤ g.nLeft → g.pairU x = 0 → d x = 0
  zfree : ∀ x, x ≤ g.nLeft → d x = 0 → 1 ≤ x ∧ g.pairU x = 0
  bnd : ∀ x, x ≤ g.nLeft → d x ≠ INF → d x < kcount g d
  parent : ∀ x, x ≤ g.nLeft → d x ≠ INF → 1 ≤ d x →
    ∃ u v, 1 ≤ u ∧ u ≤ g.nLeft ∧ v ∈ g.adj u ∧ g.pairV v = x ∧ d u ≠ INF ∧ d x = d u + 1

theorem bfsLoop_run (g : BG) (hpv : pvRange g)
    (hadj : ∀ u v, v ∈ g.adj u → v ≤ g.nRight) :
    ∀ fuel d q d', bfsLoop g fuel d q = .ok d' → BInv g d q →
      BInv g d' [] ∧ (∀ x, d' x ≠ d x → d x = INF ∧ x ≤ g.nLeft) ∧
      (∀ x, d x ≠ INF → d' x = d x) := by
  intro fuel
  induction fuel with
  | zero => intro d q d' hrun; cases hrun
  | succ fuel ih =>
    intro d q d' hrun hi
    match q with
    | [] =>
      simp only [bfsLoop, Except.ok.injEq] at hrun
      subst hrun
      exact ⟨hi, fun x hx => absurd rfl hx, fun x _ => rfl⟩
    | u :: qt =>
      have hu : u ≤ g.nLeft := hi.qb u (List.mem_cons_self u qt)
      have hu1 : u < g.nLeft + 1 := Nat.lt_succ_of_le hu
      have h01 : (0 : Nat) < g.nLeft + 1 := Nat.succ_pos _
      rw [bfsLoop, idx_lt _ hu1, okBind, idx_lt _ h01, okBind] at hrun
      by_cases hguard : d u < d 0
      · rw [if_pos hguard, idx_lt _ hu1, okBind] at hrun
        have hdu : d u ≠ INF := by
          have := hi.dle 0 (Nat.zero_le _)
          omega
        have hune : u ≠ 0 := fun h => by subst h; exact Nat.lt_irrefl _ hguard
        obtain ⟨d1, ws, hnb, hchg, hws, _, _, hd1u, _⟩ :=
          bfsNbrs_spec g u hu hpv (g.adj u) d qt (fun v hv => hadj u v hv) hdu
        rw [hnb, okBind] at hrun
        have hfr1 : ∀ y, d y ≠ INF → d1 y = d y := by
          intro y hy
          by_contra hne
          exact hy (hchg y hne).1
        have hdle1 : ∀ x, x ≤ g.nLeft → d1 x ≤ INF := by
          intro x hx
          by_cases hne : d1 x = d x
          · rw [hne]; exact hi.dle x hx
          · obtain ⟨_, _, h3, _⟩ := hchg x hne
            rw [h3]
            have := hi.dle 0 (Nat.zero_le _)
            omega
        have hi1 : BInv g d1 (qt ++ ws) := by
          refine ⟨?_, hdle1, ?_, ?_, ?_, ?_⟩
          · intro x hx
            rcases List.mem_append.1 hx with hx | hx
            · exact hi.qb x (List.mem_cons_of_mem u hx)
            · exact (hws x hx).1
          · intro x h1 h2 h3
            have h0 : d x = 0 := hi.free0 x h1 h2 h3
            rw [hfr1 x (by rw [h0]; exact INF_pos.ne), h0]
          · intro x hx h0
            by_cases hne : d1 x = d x
            · exact hi.zfree x hx (hne ▸ h0)
            · obtain ⟨_, _, h3, _⟩ := hchg x hne
              rw [h0] at h3
              omega
          · intro x hx hne
            by_cases heq : d1 x = d x
            · rw [heq]
              calc d x < kcount g d := hi.bnd x hx (heq ▸ hne)
              _ ≤ kcount g d1 := kcount_mono g hfr1
            · obtain ⟨hxinf, _, h3, _⟩ := hchg x heq
              rw [h3]
              have hlt : kcount g d < kcount g d1 :=
                kcount_lt g hx hxinf (h3 ▸ hne) hfr1
              have := hi.bnd u hu hdu
              omega
          · intro x hx hne hpos
            by_cases heq : d1 x = d x
            · obtain ⟨p, v, hp1, hp2, hp3, hp4, hp5, hp6⟩ :=
                hi.parent x hx (heq ▸ hne) (heq ▸ hpos)
              exact ⟨p, v, hp1, hp2, hp3, hp4,
                by rw [hfr1 p hp5]; exact hp5, by rw [heq, hfr1 p hp5]; exact hp6⟩
            · obtain ⟨hxinf, _, h3, v, hv, hveq⟩ := hchg x heq
              exact ⟨u, v, Nat.one_le_iff_ne_zero.2 hune, hu, hv, hveq,
                by rw [hd1u]; exact hdu, by rw [h3, hd1u]⟩
        obtain ⟨hfin, hchg2, hfr2⟩ := ih d1 (qt ++ ws) d' hrun hi1
        refine ⟨hfin, ?_, ?_⟩
        · intro x hx
          by_cases heq : d1 x = d x
          · obtain ⟨ha, hb⟩ := hchg2 x (by rw [← heq] at hx; exact hx)
            exact ⟨heq ▸ ha, hb⟩
          · exact ⟨(hchg x heq).1, (hchg x heq).2.1⟩
        · intro x hx
          rw [hfr2 x (by rw [hfr1 x hx]; exact hx), hfr1 x hx]
      · rw [if_neg hguard] at hrun
        have hi1 : BInv g d qt :=
          ⟨fun x hx => hi.qb x (List.mem_cons_of_mem u hx), hi.dle, hi.free0,
            hi.zfree, hi.bnd, hi.parent⟩
        exact ih d qt d' hrun hi1

/-! ### Assembled `bfs` postconditions -/

/-- The distance function and FIFO queue right after the initialisation
part of `bfs`. -/
def bfsStartD (g : BG) : Nat → Nat := fun x =>
  if x = 0 then INF
  else if x ≤ g.nLeft then (if g.pairU x = 0 then 0 else INF) else g.dist x

def bfsStartQ (g : BG) : List Nat :=
  (List.range' 1 g.nLeft).filter fun x => g.pairU x == 0

theorem bfs_head (g : BG) :
    bfs g = (bfsLoop g (bfsFuel g) (bfsStartD g) (bfsStartQ g) >>= fun d2 =>
      idx (g.nLeft + 1) d2 0 >>= fun d0 =>
      .ok (d0 != INF, { g with dist := d2 })) := by
  obtain ⟨dI, hrunI, houtI, hinI⟩ :=
    bfsInitA_spec g g.nLeft 1 g.dist [] (by omega)
  have h01 : (0 : Nat) < g.nLeft + 1 := Nat.succ_pos _
  rw [bfs, hrunI, okBind, upd_lt _ _ h01, okBind]
  have hd : Function.update dI 0 INF = bfsStartD g := by
    funext x
    by_cases hx0 : x = 0
    · subst hx0; rw [Function.update_same, bfsStartD, if_pos rfl]
    · rw [Function.update_noteq hx0, bfsStartD, if_neg hx0]
      by_cases hxl : x ≤ g.nLeft
      · rw [if_pos hxl, hinI x (by omega) hxl]
      · rw [if_neg hxl, houtI x (by omega)]
  rw [hd, List.nil_append, bfsStartQ]

theorem bInv_start (g : BG) : BInv g (bfsStartD g) (bfsStartQ g) := by
  have hqb : ∀ x ∈ bfsStartQ g, x ≤ g.nLeft := by
    intro x hx
    obtain ⟨hm, _⟩ := List.mem_filter.1 hx
    rw [List.mem_range'_1] at hm
    omega
  refine ⟨hqb, ?_, ?_, ?_, ?_, ?_⟩
  · intro x hx
    unfold bfsStartD
    by_cases hx0 : x = 0
    · rw [if_pos hx0]
    · rw [if_neg hx0, if_pos hx]
      by_cases hp : g.pairU x = 0
      · rw [if_pos hp]
        exact Nat.le_of_lt INF_pos
      · rw [if_neg hp]
  · intro x h1 h2 h3
    unfold bfsStartD
    rw [if_neg (by omega), if_pos h2, if_pos h3]
  · intro x hx h0
    unfold bfsStartD at h0
    by_cases hx0 : x = 0
    · rw [if_pos hx0] at h0
      exact absurd h0.symm INF_pos.ne
    · rw [if_neg hx0, if_pos hx] at h0
      by_cases hp : g.pairU x = 0
      · exact ⟨by omega, hp⟩
      · rw [if_neg hp] at h0
        exact absurd h0.symm INF_pos.ne
  · intro x hx hne
    have hmem : x ∈ (Finset.range (g.nLeft + 1)).filter fun y => bfsStartD g y ≠ INF := by
      simp only [Finset.mem_filter, Finset.mem_range]
      exact ⟨by omega, hne⟩
    have hpos : 0 < kcount g (bfsStartD g) :=
      Finset.card_pos.2 ⟨x, hmem⟩
    unfold bfsStartD at hne ⊢
    by_cases hx0 : x = 0
    · rw [if_pos hx0] at hne
      exact absurd rfl hne
    · rw [if_neg hx0, if_pos hx] at hne ⊢
      by_cases hp : g.pairU x = 0
      · rw [if_pos hp]
        exact hpos
      · rw [if_neg hp] at hne
        exact absurd rfl hne
  · intro x hx hne h1
    exfalso
    unfold bfsStartD at hne h1
    by_cases hx0 : x = 0
    · rw [if_pos hx0] at hne
      exact hne rfl
    · rw [if_neg hx0, if_pos hx] at hne h1
      by_cases hp : g.pairU x = 0
      · rw [if_pos hp] at h1
        omega
      · rw [if_neg hp] at hne
        exact hne rfl

/-- The extra queue-loop invariant available when `nLeft + 1 < INF`: queue
entries have finite layers, and, while the sentinel layer is still
infinite, every finite-layer vertex is either queued or fully expanded. -/
structure BInvS (g : BG) (d : Nat → Nat) (q : List Nat) : Prop where
  qfin : ∀ x ∈ q, d x ≠ INF
  proc : d 0 = INF → ∀ x, x ≤ g.nLeft → d x ≠ INF →
    x ∈ q ∨ ∀ v ∈ g.adj x, d (g.pairV v) ≠ INF

theorem bfsLoop_small (g : BG) (hpv : pvRange g)
    (hadj : ∀ u v, v ∈ g.adj u → v ≤ g.nRight) (hsm : g.nLeft + 1 < INF) :
    ∀ fuel d q, BInv g d q → BInvS g d q →
      q.length + 2 * (g.nLeft + 1 - kcount g d) < fuel →
      ∃ d', bfsLoop g fuel d q = .ok d' ∧ BInvS g d' [] := by
  intro fuel
  induction fuel with
  | zero => intro d q _ _ hm; omega
  | succ fuel ih =>
    intro d q hi his hm
    match q with
    | [] => exact ⟨d, by simp [bfsLoop], his⟩
    | u :: qt =>
      have hu : u ≤ g.nLeft := hi.qb u (List.mem_cons_self u qt)
      have hu1 : u < g.nLeft + 1 := Nat.lt_succ_of_le hu
      have h01 : (0 : Nat) < g.nLeft + 1 := Nat.succ_pos _
      have hdu : d u ≠ INF := his.qfin u (List.mem_cons_self u qt)
      rw [bfsLoop, idx_lt _ hu1, okBind, idx_lt _ h01, okBind]
      by_cases hguard : d u < d 0
      · rw [if_pos hguard, idx_lt _ hu1, okBind]
        have hune : u ≠ 0 := fun h => by subst h; exact Nat.lt_irrefl _ hguard
        obtain ⟨d1, ws, hnb, hchg, hws, hfin, hcnt, hd1u, hmem⟩ :=
          bfsNbrs_spec g u hu hpv (g.adj u) d qt (fun v hv => hadj u v hv) hdu
        have hsmv : d u + 1 ≠ INF := by
          have := hi.bnd u hu hdu
          have := kcount_le g d
          omega
        have hfr1 : ∀ y, d y ≠ INF → d1 y = d y := by
          intro y hy
          by_contra hne
          exact hy (hchg y hne).1
        rw [hnb, okBind]
        have hi1 : BInv g d1 (qt ++ ws) := by
          refine ⟨?_, ?_, ?_, ?_, ?_, ?_⟩
          · intro x hx
            rcases List.mem_append.1 hx with hx | hx
            · exact hi.qb x (List.mem_cons_of_mem u hx)
            · exact (hws x hx).1
          · intro x hx
            by_cases hne : d1 x = d x
            · rw [hne]; exact hi.dle x hx
            · rw [(hchg x hne).2.2.1]
              have := hi.dle 0 (Nat.zero_le _)
              omega
          · intro x h1 h2 h3
            have h0 : d x = 0 := hi.free0 x h1 h2 h3
            rw [hfr1 x (by rw [h0]; exact INF_pos.ne), h0]
          · intro x hx h0
            by_cases hne : d1 x = d x
            · exact hi.zfree x hx (hne ▸ h0)
            · have := (hchg x hne).2.2.1
              rw [h0] at this
              omega
          · intro x hx hne
            by_cases heq : d1 x = d x
            · rw [heq]
              calc d x < kcount g d := hi.bnd x hx (heq ▸ hne)
              _ ≤ kcount g d1 := kcount_mono g hfr1
            · obtain ⟨hxinf, _, h3, _⟩ := hchg x heq
              rw [h3]
              have hlt : kcount g d < kcount g d1 :=
                kcount_lt g hx hxinf (h3 ▸ hne) hfr1
              have := hi.bnd u hu hdu
              omega
          · intro x hx hne hpos
            by_cases heq : d1 x = d x
            · obtain ⟨p, v, hp1, hp2, hp3, hp4, hp5, hp6⟩ :=
                hi.parent x hx (heq ▸ hne) (heq ▸ hpos)
              exact ⟨p, v, hp1, hp2, hp3, hp4,
                by rw [hfr1 p hp5]; exact hp5, by rw [heq, hfr1 p hp5]; exact hp6⟩
            · obtain ⟨hxinf, _, h3, v, hv, hveq⟩ := hchg x heq
              exact ⟨u, v, Nat.one_le_iff_ne_zero.2 hune, hu, hv, hveq,
                by rw [hd1u]; exact hdu, by rw [h3, hd1u]⟩
        have his1 : BInvS g d1 (qt ++ ws) := by
          refine ⟨?_, ?_⟩
          · intro x hx
            rcases List.mem_append.1 hx with hx | hx
            · rw [hfr1 x (his.qfin x (List.mem_cons_of_mem u hx))]
              exact his.qfin x (List.mem_cons_of_mem u hx)
            · rw [(hws x hx).2.1]
              exact hsmv
          · intro h0 x hx hxf
            have hd0 : d 0 = INF := by
              by_contra hne
              rw [hfr1 0 hne] at h0
              exact hne h0
            by_cases hxu : x = u
            · subst hxu
              exact Or.inr (hfin hsmv)
            · by_cases hxold : d x = INF
              · exact Or.inl (List.mem_append_right _ (hmem x (by rw [hxold]; exact hxf)))
              · rcases his.proc hd0 x hx hxold with hq | hproc
                · rcases List.mem_cons.1 hq with hq | hq
                  · exact absurd hq hxu
                  · exact Or.inl (List.mem_append_left _ hq)
                · refine Or.inr fun v hv => ?_
                  rw [hfr1 _ (hproc v hv)]
                  exact hproc v hv
        have hws_le : ws.length + kcount g d = kcount g d1 := by
          have := hcnt hsmv
          omega
        have hk1 : kcount g d1 ≤ g.nLeft + 1 := kcount_le g d1
        have hk0 : kcount g d ≤ g.nLeft + 1 := kcount_le g d
        refine ih d1 (qt ++ ws) hi1 his1 ?_
        rw [List.length_append]
        simp only [List.length_cons] at hm
        omega
      · rw [if_neg hguard]
        have hd0fin : d 0 ≠ INF := by
          have := hi.dle u hu
          intro h0
          rw [h0] at hguard
          omega
        have hi1 : BInv g d qt :=
          ⟨fun x hx => hi.qb x (List.mem_cons_of_mem u hx), hi.dle, hi.free0,
            hi.zfree, hi.bnd, hi.parent⟩
        have his1 : BInvS g d qt :=
          ⟨fun x hx => his.qfin x (List.mem_cons_of_mem u hx),
            fun h0 => absurd h0 hd0fin⟩
        refine ih d qt hi1 his1 ?_
        simp only [List.length_cons] at hm
        omega

theorem bfs_small (g : BG) (hpv : pvRange g)
    (hadj : ∀ u v, v ∈ g.adj u → v ≤ g.nRight) (hsm : g.nLeft + 1 < INF) :
    ∃ b g', bfs g = .ok (b, g') ∧
      (b = false → ∀ x, 1 ≤ x → x ≤ g.nLeft → g'.dist x ≠ INF →
        ∀ v ∈ g.adj x, g'.dist (g.pairV v) ≠ INF) := by
  have hqlen : (bfsStartQ g).length ≤ g.nLeft := by
    calc (bfsStartQ g).length ≤ (List.range' 1 g.nLeft).length :=
          List.length_filter_le _ _
    _ = g.nLeft := List.length_range' _ _ _
  have hmeas : (bfsStartQ g).length + 2 * (g.nLeft + 1 - kcount g (bfsStartD g)) <
      bfsFuel g := by
    unfold bfsFuel
    have : (g.nLeft + 2) * (g.nLeft + 2) = g.nLeft * g.nLeft + 4 * g.nLeft + 4 := by ring
    omega
  have hstart : BInvS g (bfsStartD g) (bfsStartQ g) := by
    refine ⟨?_, ?_⟩
    · intro x hx
      obtain ⟨hm, hp⟩ := List.mem_filter.1 hx
      rw [List.mem_range'_1] at hm
      unfold bfsStartD
      rw [if_neg (by omega), if_pos (by omega), if_pos (by simpa using hp)]
      exact INF_pos.ne
    · intro h0 x hx hxf
      left
      unfold bfsStartD at hxf
      by_cases hx0 : x = 0
      · rw [if_pos hx0] at hxf
        exact absurd rfl hxf
      · rw [if_neg hx0, if_pos hx] at hxf
        by_cases hp : g.pairU x = 0
        · refine List.mem_filter.2 ⟨List.mem_range'_1.2 ⟨by omega, by omega⟩, by simpa using hp⟩
        · rw [if_neg hp] at hxf
          exact absurd rfl hxf
  obtain ⟨d', hrun, hfinS⟩ :=
    bfsLoop_small g hpv hadj hsm (bfsFuel g) (bfsStartD g) (bfsStartQ g)
      (bInv_start g) hstart hmeas
  refine ⟨d' 0 != INF, { g with dist := d' }, ?_, ?_⟩
  · rw [bfs_head, hrun, okBind, idx_lt _ (Nat.succ_pos _), okBind]
  · intro hb x h1 h2 hxf v hv
    have h0 : d' 0 = INF := by simpa using hb
    rcases hfinS.proc h0 x h2 hxf with hq | hproc
    · cases hq
    · exact hproc v hv

/-! ### Specification of the augmenting DFS -/

/-- Entry conditions for the `dfs` lemmas: part sizes small enough for the
`INF` sentinel, ranges, pairing validity, and the layer bounds established
by the preceding `bfs`. -/
structure DIn (s : BG) : Prop where
  small : s.nLeft + 1 < INF
  adjB : ∀ u v, v ∈ s.adj u → 1 ≤ v ∧ v ≤ s.nRight
  puR : ∀ u, s.pairU u ≤ s.nRight
  pvR : ∀ v, s.pairV v ≤ s.nLeft
  vm1 : ∀ u, 1 ≤ u → u ≤ s.nLeft → s.pairU u ≠ 0 → s.pairV (s.pairU u) = u
  vm2 : ∀ v, 1 ≤ v → v ≤ s.nRight → s.pairV v ≠ 0 → s.pairU (s.pairV v) = v
  mfa : ∀ u, 1 ≤ u → u ≤ s.nLeft → s.pairU u ≠ 0 → s.pairU u ∈ s.adj u
  dle : ∀ x, x ≤ s.nLeft → s.dist x ≤ INF
  dbnd : ∀ x, x ≤ s.nLeft → s.dist x ≠ INF → s.dist x ≤ s.nLeft

/-- Effect of a failed `dfs(u)`: the pairing is untouched and some
vertices are marked dead (`dist = INF`); every marked vertex is `u` itself
or a matched vertex, and none lies on a shallower layer than `u`. -/
def DFalse (u : Nat) (s s' : BG) : Prop :=
  s'.pairU = s.pairU ∧ s'.pairV = s.pairV ∧
  ∀ x, s'.dist x ≠ s.dist x →
    s'.dist x = INF ∧ s.dist x ≠ INF ∧ x ≤ s.nLeft ∧ s.dist u ≤ s.dist x ∧
    (x = u ∨ s.pairU x ≠ 0) ∧ 1 ≤ x

/-- Effect of a successful `dfs(u)` for `u ≥ 1`: `u` is rewired to one of
its neighbours, the set of matched left vertices other than `u` is
unchanged, validity holds except possibly at the right vertex `u` just
abandoned (whose slot is untouched — the caller repairs it), and all
rewiring and dead-marking happens at layers no shallower than `u`. -/
def DTrue (u : Nat) (s s' : BG) : Prop :=
  (s'.pairU u ∈ s.adj u ∧ 1 ≤ s'.pairU u ∧ s'.pairU u ≤ s.nRight ∧
    s'.pairU u ≠ s.pairU u ∧ s'.pairV (s'.pairU u) = u) ∧
  (∀ x, x ≠ u → (s'.pairU x = 0 ↔ s.pairU x = 0)) ∧
  ValidExceptAt s' (s.pairU u) ∧
  (s.pairU u ≠ 0 → s'.pairV (s.pairU u) = s.pairV (s.pairU u)) ∧
  (∀ x, s'.pairU x ≠ s.pairU x →
    1 ≤ x ∧ x ≤ s.nLeft ∧ s.dist x ≠ INF ∧ s.dist u ≤ s.dist x ∧ s'.pairU x ∈ s.adj x) ∧
  (∀ y, s'.pairV y ≠ s.pairV y →
    1 ≤ y ∧ y ≤ s.nRight ∧ 1 ≤ s'.pairV y ∧ s'.pairV y ≤ s.nLeft ∧
    s.dist u ≤ s.dist (s.pairV y)) ∧
  (∀ x, s'.dist x ≠ s.dist x →
    s'.dist x = INF ∧ s.dist x ≠ INF ∧ x ≤ s.nLeft ∧ s.dist u < s.dist x ∧
    s.pairU x ≠ 0 ∧ 1 ≤ x)

/-- Full postcondition of `dfs(u)`. -/
def DOut (u : Nat) (s : BG) (b : Bool) (s' : BG) : Prop :=
  SameG s s' ∧
  (∀ x, x ≤ s.nLeft → s'.dist x ≤ INF) ∧
  (∀ x, x ≤ s.nLeft → s'.dist x ≠ INF → s'.dist x ≤ s.nLeft) ∧
  (∀ x, s'.pairU x ≤ s.nRight) ∧ (∀ y, s'.pairV y ≤ s.nLeft) ∧
  (b = false → DFalse u s s') ∧
  (b = true → (u = 0 ∧ s' = s) ∨ (1 ≤ u ∧ DTrue u s s'))

theorem DIn_marks {s s' : BG} (hin : DIn s) (hsg : SameG s s')
    (hpu : s'.pairU = s.pairU) (hpv : s'.pairV = s.pairV)
    (hd : ∀ x, s'.dist x ≠ s.dist x → s'.dist x = INF) : DIn s' := by
  obtain ⟨hL, hR, hA⟩ := hsg
  refine ⟨hL ▸ hin.small, ?_, ?_, ?_, ?_, ?_, ?_, ?_, ?_⟩
  · intro u v hv
    rw [hA] at hv
    exact hR ▸ hin.adjB u v hv
  · intro u; rw [hpu, hR]; exact hin.puR u
  · intro v; rw [hpv, hL]; exact hin.pvR v
  · intro u h1 h2 h3
    rw [hpu, hpv] at *
    exact hin.vm1 u h1 (hL ▸ h2) h3
  · intro v h1 h2 h3
    rw [hpu, hpv] at *
    exact hin.vm2 v h1 (hR ▸ h2) h3
  · intro u h1 h2 h3
    rw [hpu, hA] at *
    exact hin.mfa u h1 (hL ▸ h2) h3
  · intro x hx
    rw [hL] at hx
    by_cases hc : s'.dist x = s.dist x
    · rw [hc]; exact hin.dle x hx
    · rw [hd x hc]
  · intro x hx hne
    rw [hL] at hx ⊢
    by_cases hc : s'.dist x = s.dist x
    · rw [hc]; exact hin.dbnd x hx (hc ▸ hne)
    · exact absurd (hd x hc) hne

theorem DFalse_comp {u w : Nat} {s s₁ s₂ : BG}
    (h1 : DFalse w s s₁) (h2 : DFalse u s₁ s₂) (hsg : SameG s s₁)
    (hww : s.dist w = s.dist u + 1) (hmatch : s.pairU w ≠ 0) :
    DFalse u s s₂ := by
  obtain ⟨p1, p2, m1⟩ := h1
  obtain ⟨q1, q2, m2⟩ := h2
  have hdu1 : s₁.dist u = s.dist u := by
    by_contra hne
    have := (m1 u hne).2.2.2.1
    omega
  refine ⟨q1.trans p1, q2.trans p2, ?_⟩
  intro x hx
  by_cases hc : s₂.dist x = s₁.dist x
  · have hne1 : s₁.dist x ≠ s.dist x := fun h => hx (hc.trans h)
    obtain ⟨a1, a2, a3, a4, a5, a6⟩ := m1 x hne1
    refine ⟨hc.trans a1, a2, a3, by omega, ?_, a6⟩
    rcases a5 with h | h
    · exact Or.inr (h ▸ hmatch)
    · exact Or.inr h
  · obtain ⟨b1, b2, b3, b4, b5, b6⟩ := m2 x hc
    have hx1 : s₁.dist x = s.dist x := by
      by_contra hne1
      exact b2 (m1 x hne1).1
    refine ⟨b1, hx1 ▸ b2, hsg.1 ▸ b3, by rw [hdu1, hx1] at b4; exact b4, ?_, b6⟩
    rcases b5 with h | h
    · exact Or.inl h
    · rw [p1] at h
      exact Or.inr h

theorem DTrue_after_marks {u w : Nat} {s s₁ s₂ : BG}
    (h1 : DFalse w s s₁) (ht : DTrue u s₁ s₂) (hsg : SameG s s₁)
    (hww : s.dist w = s.dist u + 1) (hmatch : s.pairU w ≠ 0) :
    DTrue u s s₂ := by
  obtain ⟨p1, p2, m1⟩ := h1
  obtain ⟨hL, hR, hA⟩ := hsg
  have hdu1 : s₁.dist u = s.dist u := by
    by_contra hne
    have := (m1 u hne).2.2.2.1
    omega
  have hfr : ∀ x, s₁.dist x ≠ INF → s₁.dist x = s.dist x := by
    intro x hx
    by_contra hne
    exact hx (m1 x hne).1
  obtain ⟨t1, t2, t3, t4, t5, t6, t7⟩ := ht
  refine ⟨?_, ?_, ?_, ?_, ?_, ?_, ?_⟩
  · rw [hA, hR, p1] at t1
    exact t1
  · intro x hx
    rw [p1] at t2
    exact t2 x hx
  · rw [congrFun p1 u] at t3
    exact t3
  · intro he
    rw [congrFun p1 u, congrFun p2 (s.pairU u)] at t4
    exact t4 he
  · intro x hx
    rw [p1] at t5
    obtain ⟨c1, c2, c3, c4, c5⟩ := t5 x hx
    rw [hA] at c5
    refine ⟨c1, hL ▸ c2, by rw [← hfr x c3]; exact c3, ?_, c5⟩
    rw [hdu1, hfr x c3] at c4
    exact c4
  · intro y hy
    rw [p2] at t6
    obtain ⟨c1, c2, c3, c4, c5⟩ := t6 y hy
    refine ⟨c1, hR ▸ c2, c3, hL ▸ c4, ?_⟩
    by_cases hc : s₁.dist (s.pairV y) = s.dist (s.pairV y)
    · rw [hdu1, hc] at c5
      exact c5
    · have := (m1 _ hc).2.2.2.1
      omega
  · intro x hx
    by_cases hc : s₂.dist x = s₁.dist x
    · have hne1 : s₁.dist x ≠ s.dist x := fun h => hx (hc.trans h)
      obtain ⟨a1, a2, a3, a4, a5, a6⟩ := m1 x hne1
      refine ⟨hc.trans a1, a2, a3, by omega, ?_, a6⟩
      rcases a5 with h | h
      · exact h ▸ hmatch
      · exact h
    · obtain ⟨b1, b2, b3, b4, b5, b6⟩ := t7 x hc
      have hx1 : s₁.dist x = s.dist x := hfr x b2
      rw [p1] at b5
      refine ⟨b1, hx1 ▸ b2, hL ▸ b3, ?_, b5, b6⟩
      rw [hdu1, hx1] at b4
      exact b4

theorem DTrue_build {u v : Nat} {s s₁ : BG} (hin : DIn s)
    (hu1 : 1 ≤ u) (hu : u ≤ s.nLeft) (hv : v ∈ s.adj u)
    (hcond : s.dist (s.pairV v) = s.dist u + 1)
    (hsub : (s.pairV v = 0 ∧ s₁ = s) ∨ (1 ≤ s.pairV v ∧ DTrue (s.pairV v) s s₁))
    (hsg : SameG s s₁) :
    DTrue u s { s₁ with pairU := Function.update s₁.pairU u v,
                        pairV := Function.update s₁.pairV v u } := by
  obtain ⟨hv1, hv2⟩ := hin.adjB u v hv
  have hw : s.pairV v ≤ s.nLeft := hin.pvR v
  have hduf : s.dist u ≠ INF := by
    have h1 : s.dist (s.pairV v) ≤ INF := hin.dle _ hw
    omega
  have hvne : v ≠ s.pairU u := by
    intro heq
    have hne0 : s.pairU u ≠ 0 := by rw [← heq]; omega
    have := hin.vm1 u hu1 hu hne0
    rw [← heq] at this
    rw [this] at hcond
    omega
  rcases hsub with ⟨hw0, hs1⟩ | ⟨hw1, hT⟩
  · -- the recursion ended at the sentinel: v was an unmatched right vertex
    rw [hs1]
    rw [hw0] at hcond
    refine ⟨?_, ?_, ⟨?_, ?_⟩, ?_, ?_, ?_, ?_⟩
    · dsimp only
      rw [Function.update_same, Function.update_same]
      exact ⟨hv, hv1, hv2, fun h => hvne h, rfl⟩
    · intro x hx
      dsimp only
      rw [Function.update_noteq hx]
    · intro x hx1 hx2 hx3
      dsimp only at hx3 ⊢
      by_cases hxu : x = u
      · rw [hxu]
        rw [Function.update_same, Function.update_same]
      · rw [Function.update_noteq hxu] at hx3 ⊢
        have hne : s.pairU x ≠ v := by
          intro heq
          have hvx := hin.vm1 x hx1 hx2 hx3
          rw [heq] at hvx
          omega
        rw [Function.update_noteq hne]
        exact hin.vm1 x hx1 hx2 hx3
    · intro y hy1 hy2 hye hy3
      dsimp only at hy3 ⊢
      by_cases hyv : y = v
      · rw [hyv]
        rw [Function.update_same, Function.update_same]
      · rw [Function.update_noteq hyv] at hy3 ⊢
        have hne : s.pairV y ≠ u := by
          intro heq
          have hvy := hin.vm2 y hy1 hy2 hy3
          rw [heq] at hvy
          exact hye hvy.symm
        rw [Function.update_noteq hne]
        exact hin.vm2 y hy1 hy2 hy3
    · intro he
      dsimp only
      rw [Function.update_noteq (fun h => hvne h.symm)]
    · intro x hx
      dsimp only at hx ⊢
      by_cases hxu : x = u
      · rw [hxu]
        rw [Function.update_same]
        exact ⟨hu1, hu, hduf, Nat.le_refl _, hv⟩
      · rw [Function.update_noteq hxu] at hx
        exact absurd rfl hx
    · intro y hy
      dsimp only at hy ⊢
      by_cases hyv : y = v
      · rw [hyv]
        simp only [Function.update_same]
        exact ⟨hv1, hv2, hu1, hu, by rw [hw0]; omega⟩
      · rw [Function.update_noteq hyv] at hy
        exact absurd rfl hy
    · intro x hx
      dsimp only at hx
      exact absurd rfl hx
  · -- the recursion rewired the matched partner of v
    have hvm : s.pairU (s.pairV v) = v :=
      hin.vm2 v hv1 hv2 (by omega)
    obtain ⟨st1, st2, st3, st4, st5, st6, st7⟩ := hT
    obtain ⟨sa1, sa2, sa3, sa4, sa5⟩ := st1
    have hpuu : s₁.pairU u = s.pairU u := by
      by_contra hne
      have := (st5 u hne).2.2.2.1
      omega
    have hvwne : s₁.pairU (s.pairV v) ≠ v := by
      rw [hvm] at sa4
      exact sa4
    have hstale : s₁.pairV v = s.pairV v := by
      have h0 := st4 (by rw [hvm]; omega)
      rw [hvm] at h0
      exact h0
    refine ⟨?_, ?_, ⟨?_, ?_⟩, ?_, ?_, ?_, ?_⟩
    · dsimp only
      rw [Function.update_same, Function.update_same]
      exact ⟨hv, hv1, hv2, fun h => hvne h, rfl⟩
    · intro x hx
      dsimp only
      rw [Function.update_noteq hx]
      by_cases hxw : x = s.pairV v
      · rw [hxw]
        constructor
        · intro h
          omega
        · intro h
          omega
      · exact st2 x hxw
    · intro x hx1 hx2 hx3
      dsimp only at hx3 ⊢
      by_cases hxu : x = u
      · rw [hxu]
        rw [Function.update_same, Function.update_same]
      · rw [Function.update_noteq hxu] at hx3 ⊢
        have hne : s₁.pairU x ≠ v := by
          intro heq
          have hback := st3.1 x hx1 (hsg.1 ▸ hx2) hx3
          rw [heq] at hback
          rw [hstale] at hback
          rw [hback] at hvwne
          exact hvwne heq
        rw [Function.update_noteq hne]
        exact st3.1 x hx1 (hsg.1 ▸ hx2) hx3
    · intro y hy1 hy2 hye hy3
      dsimp only at hy3 ⊢
      by_cases hyv : y = v
      · rw [hyv]
        rw [Function.update_same, Function.update_same]
      · rw [Function.update_noteq hyv] at hy3 ⊢
        have hyu : s₁.pairV y ≠ u := by
          intro heq
          have hvy := st3.2 y hy1 (hsg.2.1 ▸ hy2) (by rw [hvm]; exact hyv) hy3
          rw [heq, hpuu] at hvy
          exact hye hvy.symm
        rw [Function.update_noteq hyu]
        exact st3.2 y hy1 (hsg.2.1 ▸ hy2) (by rw [hvm]; exact hyv) hy3
    · intro he
      dsimp only
      rw [Function.update_noteq (fun h => hvne h.symm)]
      by_contra hne
      have hc := (st6 _ hne).2.2.2.2
      have hvp := hin.vm1 u hu1 hu he
      rw [hvp] at hc
      omega
    · intro x hx
      dsimp only at hx ⊢
      by_cases hxu : x = u
      · rw [hxu]
        rw [Function.update_same]
        exact ⟨hu1, hu, hduf, Nat.le_refl _, hv⟩
      · rw [Function.update_noteq hxu] at hx
        obtain ⟨c1, c2, c3, c4, c5⟩ := st5 x hx
        rw [Function.update_noteq hxu]
        exact ⟨c1, c2, c3, by omega, c5⟩
    · intro y hy
      dsimp only at hy ⊢
      by_cases hyv : y = v
      · rw [hyv]
        simp only [Function.update_same]
        exact ⟨hv1, hv2, hu1, hu, by omega⟩
      · rw [Function.update_noteq hyv] at hy ⊢
        obtain ⟨c1, c2, c3, c4, c5⟩ := st6 y hy
        exact ⟨c1, c2, c3, c4, by omega⟩
    · intro x hx
      dsimp only at hx
      obtain ⟨c1, c2, c3, c4, c5, c6⟩ := st7 x hx
      exact ⟨c1, c2, c3, by omega, c5, c6⟩

theorem dfsGo_zero : ∀ fuel (s : BG) b s', dfsGo fuel 0 s = .ok (b, s') →
    b = true ∧ s' = s := by
  intro fuel s b s' h
  match fuel with
  | 0 => cases h
  | fuel + 1 =>
    rw [dfsGo, if_pos rfl, Except.ok.injEq, Prod.mk.injEq] at h
    exact ⟨h.1.symm, h.2.symm⟩

theorem dfsScan_spec (fuel : Nat)
    (IH : ∀ w s b s', dfsGo fuel w s = .ok (b, s') → DIn s → w ≤ s.nLeft →
      DOut w s b s') :
    ∀ vs u (s : BG) b s', dfsScan (dfsGo fuel) u vs s = .ok (b, s') →
      DIn s → 1 ≤ u → u ≤ s.nLeft → (∀ v ∈ vs, v ∈ s.adj u) →
      DOut u s b s' := by
  intro vs
  induction vs with
  | nil =>
    intro u s b s' hrun hin hu1 hu hvs
    rw [dfsScan, upd_lt _ _ (Nat.lt_succ_of_le hu), okBind, Except.ok.injEq,
      Prod.mk.injEq] at hrun
    obtain ⟨hb, hs'⟩ := hrun
    rw [← hb, ← hs']
    refine ⟨⟨rfl, rfl, rfl⟩, ?_, ?_, hin.puR, hin.pvR, ?_, ?_⟩
    · intro x hx
      dsimp only
      by_cases hxu : x = u
      · rw [hxu, Function.update_same]
      · rw [Function.update_noteq hxu]
        exact hin.dle x hx
    · intro x hx hne
      dsimp only at hne ⊢
      by_cases hxu : x = u
      · rw [hxu, Function.update_same] at hne
        exact absurd rfl hne
      · rw [Function.update_noteq hxu] at hne ⊢
        exact hin.dbnd x hx hne
    · intro _
      refine ⟨rfl, rfl, ?_⟩
      intro x hx
      dsimp only at hx ⊢
      by_cases hxu : x = u
      · rw [hxu] at hx ⊢
        rw [Function.update_same] at hx ⊢
        exact ⟨rfl, fun h => hx h.symm, hu, Nat.le_refl _, Or.inl rfl, hu1⟩
      · rw [Function.update_noteq hxu] at hx
        exact absurd rfl hx
    · intro h
      exact absurd h Bool.false_ne_true
  | cons v vs ihs =>
    intro u s b s' hrun hin hu1 hu hvs
    have hvadj : v ∈ s.adj u := hvs v (List.mem_cons_self v vs)
    obtain ⟨hv1, hv2⟩ := hin.adjB u v hvadj
    have hv2' : v < s.nRight + 1 := Nat.lt_succ_of_le hv2
    have hw : s.pairV v ≤ s.nLeft := hin.pvR v
    have hw' : s.pairV v < s.nLeft + 1 := Nat.lt_succ_of_le hw
    have hu' : u < s.nLeft + 1 := Nat.lt_succ_of_le hu
    rw [dfsScan, idx_lt _ hv2', okBind, idx_lt _ hw', okBind, idx_lt _ hu',
      okBind] at hrun
    by_cases hcond : s.dist (s.pairV v) = s.dist u + 1
    · rw [if_pos hcond] at hrun
      have hduf : s.dist u ≠ INF := by
        have h1 : s.dist (s.pairV v) ≤ INF := hin.dle _ hw
        omega
      cases hrec : dfsGo fuel (s.pairV v) s with
      | error e => rw [hrec, errBind] at hrun; cases hrun
      | ok p =>
        obtain ⟨b₁, s₁⟩ := p
        have hD := IH _ _ _ _ hrec hin hw
        obtain ⟨hsg1, hdle1, hdbnd1, hpuR1, hpvR1, hDf, hDt⟩ := hD
        rw [hrec, okBind] at hrun
        by_cases hb1 : b₁ = true
        · rw [hb1] at hrun
          simp only [if_pos] at hrun
          rw [upd_lt _ _ (by rw [hsg1.1]; exact hu'), okBind,
            upd_lt _ _ (by rw [hsg1.2.1]; exact hv2'), okBind, Except.ok.injEq,
            Prod.mk.injEq] at hrun
          obtain ⟨hb, hs'⟩ := hrun
          rw [← hb, ← hs']
          have hT := DTrue_build hin hu1 hu hvadj hcond
            (by
              rcases hDt hb1 with ⟨h0, he⟩ | ⟨h1, ht⟩
              · exact Or.inl ⟨h0, he⟩
              · exact Or.inr ⟨h1, ht⟩) hsg1
          refine ⟨⟨hsg1.1, hsg1.2.1, hsg1.2.2⟩, ?_, ?_, ?_, ?_, ?_, ?_⟩
          · intro x hx
            dsimp only
            exact hdle1 x hx
          · intro x hx hne
            dsimp only at hne ⊢
            exact hdbnd1 x hx hne
          · intro x
            dsimp only
            by_cases hxu : x = u
            · rw [hxu, Function.update_same]
              exact hv2
            · rw [Function.update_noteq hxu]
              exact hpuR1 x
          · intro y
            dsimp only
            by_cases hyv : y = v
            · rw [hyv, Function.update_same]
              exact hu
            · rw [Function.update_noteq hyv]
              exact hpvR1 y
          · intro h
            exact absurd h.symm Bool.false_ne_true
          · intro _
            exact Or.inr ⟨hu1, hT⟩
        · rw [Bool.not_eq_true] at hb1
          rw [hb1] at hrun
          simp only [Bool.false_eq_true, if_false] at hrun
          have hDfalse := hDf hb1
          have hw0 : s.pairV v ≠ 0 := by
            intro h0
            rw [h0] at hrec
            obtain ⟨hbt, _⟩ := dfsGo_zero fuel s b₁ s₁ hrec
            rw [hbt] at hb1
            exact Bool.noConfusion hb1
          have hvm : s.pairU (s.pairV v) = v :=
            hin.vm2 v hv1 hv2 hw0
          have hmatch : s.pairU (s.pairV v) ≠ 0 := by
            rw [hvm]
            omega
          have hin1 : DIn s₁ :=
            DIn_marks hin hsg1 hDfalse.1 hDfalse.2.1
              (fun x hx => (hDfalse.2.2 x hx).1)
          have hout := ihs u s₁ b s' hrun hin1 hu1 (hsg1.1 ▸ hu)
            (fun w hwm => by rw [hsg1.2.2]; exact hvs w (List.mem_cons_of_mem v hwm))
          obtain ⟨hsg2, hdle2, hdbnd2, hpuR2, hpvR2, hFf, hFt⟩ := hout
          refine ⟨⟨hsg2.1.trans hsg1.1, hsg2.2.1.trans hsg1.2.1,
            hsg2.2.2.trans hsg1.2.2⟩, ?_, ?_, ?_, ?_, ?_, ?_⟩
          · intro x hx
            exact hdle2 x (by rw [hsg1.1]; exact hx)
          · intro x hx hne
            rw [← hsg1.1]
            exact hdbnd2 x (by rw [hsg1.1]; exact hx) hne
          · intro x
            rw [← hsg1.2.1]
            exact hpuR2 x
          · intro y
            rw [← hsg1.1]
            exact hpvR2 y
          · intro hbf
            exact DFalse_comp hDfalse (hFf hbf) hsg1 hcond hmatch
          · intro hbt
            rcases hFt hbt with ⟨h0, _⟩ | ⟨_, ht⟩
            · omega
            · exact Or.inr ⟨hu1, DTrue_after_marks hDfalse ht hsg1 hcond hmatch⟩
    · rw [if_neg hcond] at hrun
      exact ihs u s b s' hrun hin hu1 hu
        (fun w hwm => hvs w (List.mem_cons_of_mem v hwm))

theorem dfsGo_spec : ∀ fuel u (s : BG) b s', dfsGo fuel u s = .ok (b, s') →
    DIn s → u ≤ s.nLeft → DOut u s b s' := by
  intro fuel
  induction fuel with
  | zero => intro u s b s' hrun; cases hrun
  | succ fuel ih =>
    intro u s b s' hrun hin hu
    rw [dfsGo] at hrun
    by_cases hu0 : u = 0
    · rw [if_pos hu0, Except.ok.injEq, Prod.mk.injEq] at hrun
      obtain ⟨hb, hs'⟩ := hrun
      rw [← hb, ← hs']
      refine ⟨⟨rfl, rfl, rfl⟩, hin.dle, hin.dbnd, hin.puR, hin.pvR, ?_, ?_⟩
      · intro h
        exact absurd h.symm Bool.false_ne_true
      · intro _
        exact Or.inl ⟨hu0, rfl⟩
    · rw [if_neg hu0, idx_lt _ (Nat.lt_succ_of_le hu), okBind] at hrun
      exact dfsScan_spec fuel ih (s.adj u) u s b s' hrun hin
        (Nat.one_le_iff_ne_zero.2 hu0) hu (fun _ hv => hv)

theorem dfsScan_ok (fuel : Nat)
    (IHspec : ∀ w s b s', dfsGo fuel w s = .ok (b, s') → DIn s → w ≤ s.nLeft →
      DOut w s b s')
    (IHok : ∀ w (s : BG), DIn s → w ≤ s.nLeft →
      s.nLeft + 2 ≤ fuel + min (s.dist w) (s.nLeft + 1) →
      ∃ b s', dfsGo fuel w s = .ok (b, s')) :
    ∀ vs u (s : BG), DIn s → 1 ≤ u → u ≤ s.nLeft → (∀ v ∈ vs, v ∈ s.adj u) →
      s.nLeft + 1 ≤ fuel + min (s.dist u) (s.nLeft + 1) →
      ∃ b s', dfsScan (dfsGo fuel) u vs s = .ok (b, s') := by
  intro vs
  induction vs with
  | nil =>
    intro u s hin hu1 hu hvs hfuel
    rw [dfsScan, upd_lt _ _ (Nat.lt_succ_of_le hu), okBind]
    exact ⟨_, _, rfl⟩
  | cons v vs ihs =>
    intro u s hin hu1 hu hvs hfuel
    have hvadj : v ∈ s.adj u := hvs v (List.mem_cons_self v vs)
    obtain ⟨hv1, hv2⟩ := hin.adjB u v hvadj
    have hw : s.pairV v ≤ s.nLeft := hin.pvR v
    rw [dfsScan, idx_lt _ (Nat.lt_succ_of_le hv2), okBind,
      idx_lt _ (Nat.lt_succ_of_le hw), okBind, idx_lt _ (Nat.lt_succ_of_le hu),
      okBind]
    by_cases hcond : s.dist (s.pairV v) = s.dist u + 1
    · rw [if_pos hcond]
      have hduf : s.dist u ≠ INF := by
        have h1 : s.dist (s.pairV v) ≤ INF := hin.dle _ hw
        omega
      have hdub : s.dist u ≤ s.nLeft := hin.dbnd u hu hduf
      have hmin : min (s.dist u) (s.nLeft + 1) = s.dist u := Nat.min_eq_left (by omega)
      obtain ⟨b₁, s₁, hrec⟩ := IHok (s.pairV v) s hin hw
        (by
          have : min (s.dist (s.pairV v)) (s.nLeft + 1) = s.dist u + 1 := by
            rw [hcond]
            exact Nat.min_eq_left (by omega)
          omega)
      rw [hrec, okBind]
      obtain ⟨hsg1, hdle1, hdbnd1, hpuR1, hpvR1, hDf, hDt⟩ :=
        IHspec _ _ _ _ hrec hin hw
      by_cases hb1 : b₁ = true
      · rw [hb1]
        simp only [if_pos]
        rw [upd_lt _ _ (by rw [hsg1.1]; exact Nat.lt_succ_of_le hu), okBind,
          upd_lt _ _ (by rw [hsg1.2.1]; exact Nat.lt_succ_of_le hv2), okBind]
        exact ⟨_, _, rfl⟩
      · rw [Bool.not_eq_true] at hb1
        rw [hb1]
        simp only [Bool.false_eq_true, if_false]
        have hDfalse := hDf hb1
        have hin1 : DIn s₁ :=
          DIn_marks hin hsg1 hDfalse.1 hDfalse.2.1
            (fun x hx => (hDfalse.2.2 x hx).1)
        have hdu1 : s₁.dist u = s.dist u := by
          by_contra hne
          have := (hDfalse.2.2 u hne).2.2.2.1
          omega
        refine ihs u s₁ hin1 hu1 (hsg1.1 ▸ hu)
          (fun w hwm => by rw [hsg1.2.2]; exact hvs w (List.mem_cons_of_mem v hwm)) ?_
        rw [hsg1.1, hdu1]
        exact hfuel
    · rw [if_neg hcond]
      exact ihs u s hin hu1 hu (fun w hwm => hvs w (List.mem_cons_of_mem v hwm)) hfuel

theorem dfsGo_ok : ∀ fuel u (s : BG), DIn s → u ≤ s.nLeft →
    s.nLeft + 2 ≤ fuel + min (s.dist u) (s.nLeft + 1) →
    ∃ b s', dfsGo fuel u s = .ok (b, s') := by
  intro fuel
  induction fuel with
  | zero =>
    intro u s _ _ hfuel
    have := Nat.min_le_right (s.dist u) (s.nLeft + 1)
    omega
  | succ fuel ih =>
    intro u s hin hu hfuel
    rw [dfsGo]
    by_cases hu0 : u = 0
    · rw [if_pos hu0]
      exact ⟨true, s, rfl⟩
    · rw [if_neg hu0, idx_lt _ (Nat.lt_succ_of_le hu), okBind]
      exact dfsScan_ok fuel (fun w s b s' h hi hw => dfsGo_spec fuel w s b s' h hi hw)
        ih (s.adj u) u s hin (Nat.one_le_iff_ne_zero.2 hu0) hu (fun _ hv => hv)
        (by omega)

theorem Reach0_finite {s : BG} (hin : DIn s) {z : Nat} (hz : Reach0 s z)
    (h1 : 1 ≤ z) : s.dist z ≠ INF := by
  cases hz with
  | zero => omega
  | step u v hu1 hu2 hv hd hr =>
    have h2 : s.dist (s.pairV v) ≤ INF := hin.dle _ (hin.pvR v)
    omega

theorem dfsScan_reach (fuel : Nat)
    (IHr : ∀ w (s : BG) s', dfsGo fuel w s = .ok (false, s') → DIn s →
      w ≤ s.nLeft → (∀ x, Reach0 s' x ↔ Reach0 s x) ∧ ¬ Reach0 s w)
    (IHspec : ∀ w s b s', dfsGo fuel w s = .ok (b, s') → DIn s → w ≤ s.nLeft →
      DOut w s b s') :
    ∀ vs u (s : BG) s', dfsScan (dfsGo fuel) u vs s = .ok (false, s') →
      DIn s → 1 ≤ u → u ≤ s.nLeft → (∀ v ∈ vs, v ∈ s.adj u) →
      (∀ v ∈ vs, ¬ (s.dist (s.pairV v) = s.dist u + 1 ∧ Reach0 s (s.pairV v))) ∧
      (¬ Reach0 s u → ∀ x, Reach0 s' x ↔ Reach0 s x) := by
  intro vs
  induction vs with
  | nil =>
    intro u s s' hrun hin hu1 hu hvs
    rw [dfsScan, upd_lt _ _ (Nat.lt_succ_of_le hu), okBind, Except.ok.injEq,
      Prod.mk.injEq] at hrun
    obtain ⟨-, hs'⟩ := hrun
    refine ⟨fun v hv => absurd hv (List.not_mem_nil v), ?_⟩
    intro hnr x
    rw [← hs']
    constructor
    · intro hx
      induction hx with
      | zero => exact .zero
      | step a v ha1 ha2 hav hd hr ihr =>
        have hav' : v ∈ s.adj a := hav
        have hd' : Function.update s.dist u INF (s.pairV v) =
            Function.update s.dist u INF a + 1 := hd
        have ha2' : a ≤ s.nLeft := ha2
        have hz : s.pairV v ≤ s.nLeft := hin.pvR v
        by_cases hau : a = u
        · exfalso
          rw [hau, Function.update_same] at hd'
          have h2 : Function.update s.dist u INF (s.pairV v) ≤ INF := by
            by_cases hzu : s.pairV v = u
            · rw [hzu, Function.update_same]
            · rw [Function.update_noteq hzu]
              exact hin.dle _ hz
          omega
        · rw [Function.update_noteq hau] at hd'
          by_cases hzu : s.pairV v = u
          · exfalso
            rw [hzu, Function.update_same] at hd'
            have h3 : s.dist a ≠ INF := by omega
            have h4 := hin.dbnd a ha2' h3
            have h5 := hin.small
            omega
          · rw [Function.update_noteq hzu] at hd'
            exact .step a v ha1 ha2' hav' hd' (ihr)
    · intro hx
      induction hx with
      | zero => exact .zero
      | step a v ha1 ha2 hav hd hr ihr =>
        by_cases hzu : s.pairV v = u
        · exact absurd (hzu ▸ hr) hnr
        · by_cases hau : a = u
          · exact absurd (Reach0.step a v ha1 ha2 hav hd hr) (hau ▸ hnr)
          · refine Reach0.step a v ha1 ha2 hav ?_ ihr
            show Function.update s.dist u INF (s.pairV v) =
              Function.update s.dist u INF a + 1
            rw [Function.update_noteq hzu, Function.update_noteq hau]
            exact hd
  | cons v vs ihs =>
    intro u s s' hrun hin hu1 hu hvs
    have hvadj : v ∈ s.adj u := hvs v (List.mem_cons_self v vs)
    obtain ⟨hv1, hv2⟩ := hin.adjB u v hvadj
    have hw : s.pairV v ≤ s.nLeft := hin.pvR v
    rw [dfsScan, idx_lt _ (Nat.lt_succ_of_le hv2), okBind,
      idx_lt _ (Nat.lt_succ_of_le hw), okBind, idx_lt _ (Nat.lt_succ_of_le hu),
      okBind] at hrun
    by_cases hcond : s.dist (s.pairV v) = s.dist u + 1
    · rw [if_pos hcond] at hrun
      cases hrec : dfsGo fuel (s.pairV v) s with
      | error e => rw [hrec, errBind] at hrun; cases hrun
      | ok p =>
        obtain ⟨b₁, s₁⟩ := p
        rw [hrec, okBind] at hrun
        by_cases hb1 : b₁ = true
        · exfalso
          rw [hb1] at hrun
          simp only [if_pos] at hrun
          obtain ⟨hsg1, _, _, _, _, _, _⟩ := IHspec _ _ _ _ hrec hin hw
          rw [upd_lt _ _ (by rw [hsg1.1]; exact Nat.lt_succ_of_le hu), okBind,
            upd_lt _ _ (by rw [hsg1.2.1]; exact Nat.lt_succ_of_le hv2), okBind,
            Except.ok.injEq, Prod.mk.injEq] at hrun
          exact Bool.noConfusion hrun.1
        · rw [Bool.not_eq_true] at hb1
          rw [hb1] at hrun
          simp only [Bool.false_eq_true, if_false] at hrun
          obtain ⟨hiff1, hnr1⟩ := IHr _ _ _ (hb1 ▸ hrec) hin hw
          obtain ⟨hsg1, hdle1, hdbnd1, _, _, hDf, _⟩ :=
            IHspec _ _ _ _ hrec hin hw
          have hDfalse := hDf hb1
          have hin1 : DIn s₁ :=
            DIn_marks hin hsg1 hDfalse.1 hDfalse.2.1
              (fun x hx => (hDfalse.2.2 x hx).1)
          have hdu1 : s₁.dist u = s.dist u := by
            by_contra hne
            have := (hDfalse.2.2 u hne).2.2.2.1
            omega
          obtain ⟨hA, hB⟩ := ihs u s₁ s' hrun hin1 hu1 (hsg1.1 ▸ hu)
            (fun w hwm => by rw [hsg1.2.2]; exact hvs w (List.mem_cons_of_mem v hwm))
          refine ⟨?_, ?_⟩
          · intro v' hv'
            rcases List.mem_cons.1 hv' with hv' | hv'
            · intro ⟨_, hr⟩
              rw [hv'] at hr
              exact hnr1 hr
            · intro ⟨hcs, hrs⟩
              have hz1 : s.pairV v' = s₁.pairV v' := (congrFun hDfalse.2.1 v').symm
              have hr1 : Reach0 s₁ (s.pairV v') := (hiff1 _).2 hrs
              by_cases hz0 : s.pairV v' = 0
              · have hd0 : s₁.dist (s.pairV v') = s.dist (s.pairV v') := by
                  by_contra hne
                  have := (hDfalse.2.2 _ hne).2.2.2.2.2
                  omega
                refine hA v' hv' ⟨?_, ?_⟩
                · rw [← hz1, hd0, hdu1]
                  exact hcs
                · rw [← hz1]
                  exact hr1
              · have hzf : s₁.dist (s.pairV v') ≠ INF :=
                  Reach0_finite hin1 (by rw [hz1] at hr1; exact (hz1 ▸ hr1))
                    (by omega)
                have hd0 : s₁.dist (s.pairV v') = s.dist (s.pairV v') := by
                  by_contra hne
                  exact hzf ((hDfalse.2.2 _ hne).1)
                refine hA v' hv' ⟨?_, ?_⟩
                · rw [← hz1, hd0, hdu1]
                  exact hcs
                · rw [← hz1]
                  exact hr1
          · intro hnr x
            have hnr1u : ¬ Reach0 s₁ u := fun h => hnr ((hiff1 u).1 h)
            rw [hB hnr1u x, hiff1 x]
    · rw [if_neg hcond] at hrun
      obtain ⟨hA, hB⟩ := ihs u s s' hrun hin hu1 hu
        (fun w hwm => hvs w (List.mem_cons_of_mem v hwm))
      refine ⟨?_, hB⟩
      intro v' hv'
      rcases List.mem_cons.1 hv' with hv' | hv'
      · intro ⟨hcs, _⟩
        rw [hv'] at hcs
        exact hcond hcs
      · exact hA v' hv'

theorem dfsGo_reach : ∀ fuel u (s : BG) s', dfsGo fuel u s = .ok (false, s') →
    DIn s → u ≤ s.nLeft →
    (∀ x, Reach0 s' x ↔ Reach0 s x) ∧ ¬ Reach0 s u := by
  intro fuel
  induction fuel with
  | zero => intro u s s' hrun; cases hrun
  | succ fuel ih =>
    intro u s s' hrun hin hu
    rw [dfsGo] at hrun
    by_cases hu0 : u = 0
    · rw [if_pos hu0, Except.ok.injEq, Prod.mk.injEq] at hrun
      exact Bool.noConfusion hrun.1
    · rw [if_neg hu0, idx_lt _ (Nat.lt_succ_of_le hu), okBind] at hrun
      obtain ⟨hA, hB⟩ := dfsScan_reach fuel ih
        (fun w s b s' h hi hw => dfsGo_spec fuel w s b s' h hi hw)
        (s.adj u) u s s' hrun hin (Nat.one_le_iff_ne_zero.2 hu0) hu
        (fun _ hv => hv)
      have hnr : ¬ Reach0 s u := by
        intro hr
        cases hr with
        | zero => exact hu0 rfl
        | step a v ha1 ha2 hav hd hrr => exact hA v hav ⟨hd, hrr⟩
      exact ⟨hB hnr, hnr⟩

/-- Walking the BFS parent chain from the sentinel back to layer `0`
produces an unmatched left root from which the layered graph reaches the
sentinel. -/
theorem exists_free_root (s : BG)
    (hpar : ∀ x, x ≤ s.nLeft → s.dist x ≠ INF → 1 ≤ s.dist x →
      ∃ u v, 1 ≤ u ∧ u ≤ s.nLeft ∧ v ∈ s.adj u ∧ s.pairV v = x ∧
        s.dist u ≠ INF ∧ s.dist x = s.dist u + 1)
    (hzf : ∀ x, x ≤ s.nLeft → s.dist x = 0 → 1 ≤ x ∧ s.pairU x = 0)
    (h0 : s.dist 0 ≠ INF) :
    ∃ r, 1 ≤ r ∧ r ≤ s.nLeft ∧ s.pairU r = 0 ∧ Reach0 s r := by
  suffices H : ∀ n x, x ≤ s.nLeft → s.dist x ≠ INF → s.dist x = n → Reach0 s x →
      ∃ r, 1 ≤ r ∧ r ≤ s.nLeft ∧ s.pairU r = 0 ∧ Reach0 s r by
    exact H (s.dist 0) 0 (Nat.zero_le _) h0 rfl .zero
  intro n
  induction n using Nat.strong_induction_on with
  | _ n ih =>
    intro x hx hxf hxn hr
    by_cases hn0 : n = 0
    · obtain ⟨h1, h2⟩ := hzf x hx (by omega)
      exact ⟨x, h1, hx, h2, hr⟩
    · obtain ⟨u, v, h1, h2, h3, h4, h5, h6⟩ := hpar x hx hxf (by omega)
      have hru : Reach0 s u := .step u v h1 h2 h3 (by rw [h4]; exact h6)
        (by rw [h4]; exact hr)
      exact ih (s.dist u) (by omega) u h2 h5 rfl hru

theorem mcount_eq {s s' : BG} (hL : s'.nLeft = s.nLeft)
    (hpu : s'.pairU = s.pairU) : mcount s' = mcount s := by
  unfold mcount
  rw [hL, hpu]

theorem mcount_succ {s s' : BG} (hL : s'.nLeft = s.nLeft) (u : Nat)
    (h1 : 1 ≤ u) (h2 : u ≤ s.nLeft) (h0 : s.pairU u = 0) (h0' : s'.pairU u ≠ 0)
    (hiff : ∀ x, x ≠ u → (s'.pairU x = 0 ↔ s.pairU x = 0)) :
    mcount s' = mcount s + 1 := by
  unfold mcount
  rw [hL]
  have hins : (Finset.Icc 1 s.nLeft).filter (fun x => s'.pairU x ≠ 0)
      = insert u ((Finset.Icc 1 s.nLeft).filter fun x => s.pairU x ≠ 0) := by
    ext y
    simp only [Finset.mem_filter, Finset.mem_insert, Finset.mem_Icc]
    by_cases hyu : y = u
    · rw [hyu]
      simp [h1, h2, h0']
    · have hiy := hiff y hyu
      constructor
      · intro ⟨ha, hb⟩
        exact Or.inr ⟨ha, fun h => hb (hiy.2 h)⟩
      · intro h
        rcases h with h | ⟨ha, hb⟩
        · exact absurd h hyu
        · exact ⟨ha, fun h' => hb (hiy.1 h')⟩
  rw [hins, Finset.card_insert_of_not_mem (by simp [h0])]

theorem mcount_le_of_mono {s s' : BG} (hL : s'.nLeft = s.nLeft)
    (hmono : ∀ x, 1 ≤ x → x ≤ s.nLeft → s.pairU x ≠ 0 → s'.pairU x ≠ 0) :
    mcount s ≤ mcount s' := by
  unfold mcount
  rw [hL]
  refine Finset.card_le_card fun y hy => ?_
  simp only [Finset.mem_filter, Finset.mem_Icc] at hy ⊢
  exact ⟨hy.1, hmono y hy.1.1 hy.1.2 hy.2⟩

theorem DIn_afterTrue {u : Nat} {s s' : BG} (hin : DIn s) (hD : DOut u s true s')
    (h1 : 1 ≤ u) (h0 : s.pairU u = 0) : DIn s' := by
  obtain ⟨hsg, hdle, hdbnd, hpuR, hpvR, _, hDt⟩ := hD
  obtain ⟨hL, hR, hA⟩ := hsg
  rcases hDt rfl with ⟨h00, _⟩ | ⟨_, hT⟩
  · omega
  · obtain ⟨t1, t2, t3, t4, t5, t6, t7⟩ := hT
    rw [h0] at t3
    refine ⟨hL ▸ hin.small, ?_, ?_, ?_, ?_, ?_, ?_, ?_, ?_⟩
    · intro a v hv
      rw [hA] at hv
      exact hR ▸ hin.adjB a v hv
    · intro a; rw [hR]; exact hpuR a
    · intro v; rw [hL]; exact hpvR v
    · intro a ha1 ha2 ha3
      exact t3.1 a ha1 (hL ▸ ha2) ha3
    · intro v hv1 hv2 hv3
      exact t3.2 v hv1 (hR ▸ hv2) (by omega) hv3
    · intro a ha1 ha2 ha3
      rw [hA]
      by_cases hc : s'.pairU a = s.pairU a
      · rw [hc] at ha3 ⊢
        exact hin.mfa a ha1 (hL ▸ ha2) ha3
      · exact (t5 a hc).2.2.2.2
    · intro x hx
      exact hdle x (hL ▸ hx)
    · intro x hx hne
      rw [hL] at hx ⊢
      exact hdbnd x hx hne

theorem phaseScan_spec : ∀ cnt u m (s : BG), DIn s →
    u + cnt = s.nLeft + 1 → 1 ≤ u →
    (∀ x, u ≤ x → x ≤ s.nLeft → s.pairU x = 0 → s.dist x = 0) →
    ∃ m' s', phaseScan (s.nLeft + 2) cnt u m s = .ok (m', s') ∧
      SameG s s' ∧ DIn s' ∧
      m' + mcount s = m + mcount s' ∧ mcount s ≤ mcount s' ∧
      (∀ x, s'.pairU x ≠ s.pairU x → 1 ≤ x ∧ x ≤ s.nLeft ∧ s'.pairU x ∈ s.adj x) ∧
      (∀ x, 1 ≤ x → x ≤ s.nLeft → s.pairU x ≠ 0 → s'.pairU x ≠ 0) := by
  intro cnt
  induction cnt with
  | zero =>
    intro u m s hin hcnt hu1 hfr
    exact ⟨m, s, by rw [phaseScan], ⟨rfl, rfl, rfl⟩, hin, rfl, Nat.le_refl _,
      fun x hx => absurd rfl hx, fun x _ _ h => h⟩
  | succ cnt ih =>
    intro u m s hin hcnt hu1 hfr
    have hu : u ≤ s.nLeft := by omega
    have hu' : u < s.nLeft + 1 := by omega
    by_cases hp : s.pairU u = 0
    · have hd0 : s.dist u = 0 := hfr u (Nat.le_refl u) hu hp
      obtain ⟨b₁, s₁, hrec⟩ := dfsGo_ok (s.nLeft + 2) u s hin hu
        (by rw [hd0]; simp)
      have hD := dfsGo_spec _ _ _ _ _ hrec hin hu
      by_cases hb1 : b₁ = true
      · -- augmentation succeeded at u
        have hDt : DOut u s true s₁ := hb1 ▸ hD
        obtain ⟨hsg1, hdle1, hdbnd1, hpuR1, hpvR1, _, hDtt⟩ := hDt
        rcases hDtt rfl with ⟨h00, _⟩ | ⟨_, hT⟩
        · omega
        · have hin1 : DIn s₁ := DIn_afterTrue hin (hb1 ▸ hD) hu1 hp
          obtain ⟨t1, t2, t3, t4, t5, t6, t7⟩ := hT
          have hfru : s₁.pairU u ≠ 0 := by
            have := t1.2.1
            omega
          have hfr1 : ∀ x, u + 1 ≤ x → x ≤ s₁.nLeft → s₁.pairU x = 0 →
              s₁.dist x = 0 := by
            intro x hx1 hx2 hx3
            have hxu : x ≠ u := by omega
            have hfree : s.pairU x = 0 := (t2 x hxu).1 hx3
            have hds : s.dist x = 0 := hfr x (by omega) (hsg1.1 ▸ hx2) hfree
            by_cases hc : s₁.dist x = s.dist x
            · rw [hc, hds]
            · exact absurd (t7 x hc).2.2.2.2.1 (by rw [hfree]; omega)
          obtain ⟨m₂, s₂, hrun₂, hsg₂, hin₂, hcnt₂, hmle₂, hchg₂, hmm₂⟩ :=
            ih (u + 1) (m + 1) s₁ hin1 (by rw [hsg1.1]; omega) (by omega) hfr1
          rw [hsg1.1] at hrun₂
          have hms : mcount s₁ = mcount s + 1 :=
            mcount_succ hsg1.1 u hu1 hu hp hfru t2
          refine ⟨m₂, s₂, ?_, ?_, hin₂, by omega, by omega, ?_, ?_⟩
          · rw [phaseScan, idx_lt _ hu', okBind, if_pos hp, hrec, okBind]
            rw [hb1]
            simpa using hrun₂
          · exact ⟨hsg₂.1.trans hsg1.1, hsg₂.2.1.trans hsg1.2.1,
              hsg₂.2.2.trans hsg1.2.2⟩
          · intro x hx
            by_cases hc : s₂.pairU x = s₁.pairU x
            · have hne1 : s₁.pairU x ≠ s.pairU x := fun h => hx (hc.trans h)
              obtain ⟨c1, c2, c3, c4, c5⟩ := t5 x hne1
              exact ⟨c1, c2, hc ▸ c5⟩
            · obtain ⟨c1, c2, c3⟩ := hchg₂ x hc
              exact ⟨c1, hsg1.1 ▸ c2, hsg1.2.2 ▸ c3⟩
          · intro x hx1 hx2 hx3
            have hx3' : s₁.pairU x ≠ 0 := by
              by_cases hxu : x = u
              · rw [hxu]; exact hfru
              · exact fun h => hx3 ((t2 x hxu).1 h)
            exact hmm₂ x hx1 (hsg1.1 ▸ hx2) hx3'
      · -- dfs failed at u; pairing unchanged
        rw [Bool.not_eq_true] at hb1
        have hDfo : DOut u s false s₁ := hb1 ▸ hD
        obtain ⟨hsg1, hdle1, hdbnd1, hpuR1, hpvR1, hDff, _⟩ := hDfo
        have hDfalse := hDff rfl
        have hin1 : DIn s₁ :=
          DIn_marks hin hsg1 hDfalse.1 hDfalse.2.1
            (fun x hx => (hDfalse.2.2 x hx).1)
        have hfr1 : ∀ x, u + 1 ≤ x → x ≤ s₁.nLeft → s₁.pairU x = 0 →
            s₁.dist x = 0 := by
          intro x hx1 hx2 hx3
          rw [hDfalse.1] at hx3
          have hds : s.dist x = 0 := hfr x (by omega) (hsg1.1 ▸ hx2) hx3
          by_cases hc : s₁.dist x = s.dist x
          · rw [hc, hds]
          · rcases (hDfalse.2.2 x hc).2.2.2.2.1 with h | h
            · omega
            · exact absurd h (by rw [hx3]; exact fun h => h rfl)
        obtain ⟨m₂, s₂, hrun₂, hsg₂, hin₂, hcnt₂, hmle₂, hchg₂, hmm₂⟩ :=
          ih (u + 1) m s₁ hin1 (by rw [hsg1.1]; omega) (by omega) hfr1
        rw [hsg1.1] at hrun₂
        have hms : mcount s₁ = mcount s := mcount_eq hsg1.1 hDfalse.1
        refine ⟨m₂, s₂, ?_, ?_, hin₂, by omega, by omega, ?_, ?_⟩
        · rw [phaseScan, idx_lt _ hu', okBind, if_pos hp, hrec, okBind]
          rw [hb1]
          simpa using hrun₂
        · exact ⟨hsg₂.1.trans hsg1.1, hsg₂.2.1.trans hsg1.2.1,
            hsg₂.2.2.trans hsg1.2.2⟩
        · intro x hx
          have hx' : s₂.pairU x ≠ s₁.pairU x := by
            rw [hDfalse.1]
            exact hx
          obtain ⟨c1, c2, c3⟩ := hchg₂ x hx'
          exact ⟨c1, hsg1.1 ▸ c2, hsg1.2.2 ▸ c3⟩
        · intro x hx1 hx2 hx3
          refine hmm₂ x hx1 (hsg1.1 ▸ hx2) ?_
          rw [hDfalse.1]
          exact hx3
    · -- u already matched: skip
      obtain ⟨m₂, s₂, hrun₂, hsg₂, hin₂, hcnt₂, hmle₂, hchg₂, hmm₂⟩ :=
        ih (u + 1) m s hin (by omega) (by omega)
          (fun x hx1 hx2 hx3 => hfr x (by omega) hx2 hx3)
      refine ⟨m₂, s₂, ?_, hsg₂, hin₂, hcnt₂, hmle₂, hchg₂, hmm₂⟩
      rw [phaseScan, idx_lt _ hu', okBind, if_neg hp]
      exact hrun₂

theorem phaseScan_progress : ∀ cnt u m (s : BG), DIn s →
    u + cnt = s.nLeft + 1 → 1 ≤ u →
    (∀ x, u ≤ x → x ≤ s.nLeft → s.pairU x = 0 → s.dist x = 0) →
    (∃ r, u ≤ r ∧ r ≤ s.nLeft ∧ s.pairU r = 0 ∧ Reach0 s r) →
    ∀ m' s', phaseScan (s.nLeft + 2) cnt u m s = .ok (m', s') →
      mcount s < mcount s' := by
  intro cnt
  induction cnt with
  | zero =>
    intro u m s _ hcnt _ _ hroot m' s' _
    obtain ⟨r, hr1, hr2, _, _⟩ := hroot
    omega
  | succ cnt ih =>
    intro u m s hin hcnt hu1 hfr hroot m' s' hrun
    have hu : u ≤ s.nLeft := by omega
    have hu' : u < s.nLeft + 1 := by omega
    rw [phaseScan, idx_lt _ hu', okBind] at hrun
    by_cases hp : s.pairU u = 0
    · rw [if_pos hp] at hrun
      cases hrec : dfsGo (s.nLeft + 2) u s with
      | error e => rw [hrec, errBind] at hrun; cases hrun
      | ok p =>
        obtain ⟨b₁, s₁⟩ := p
        rw [hrec, okBind] at hrun
        have hD := dfsGo_spec _ _ _ _ _ hrec hin hu
        by_cases hb1 : b₁ = true
        · -- augmentation succeeded right here
          have hDt : DOut u s true s₁ := hb1 ▸ hD
          obtain ⟨hsg1, _, _, _, _, _, hDtt⟩ := hDt
          rcases hDtt rfl with ⟨h00, _⟩ | ⟨_, hT⟩
          · omega
          · have hin1 : DIn s₁ := DIn_afterTrue hin (hb1 ▸ hD) hu1 hp
            obtain ⟨t1, t2, t3, t4, t5, t6, t7⟩ := hT
            have hfru : s₁.pairU u ≠ 0 := by
              have := t1.2.1
              omega
            have hfr1 : ∀ x, u + 1 ≤ x → x ≤ s₁.nLeft → s₁.pairU x = 0 →
                s₁.dist x = 0 := by
              intro x hx1 hx2 hx3
              have hxu : x ≠ u := by omega
              have hfree : s.pairU x = 0 := (t2 x hxu).1 hx3
              have hds : s.dist x = 0 := hfr x (by omega) (hsg1.1 ▸ hx2) hfree
              by_cases hc : s₁.dist x = s.dist x
              · rw [hc, hds]
              · exact absurd (t7 x hc).2.2.2.2.1 (by rw [hfree]; omega)
            obtain ⟨m₂, s₂, hrun₂, _, _, _, hmle₂, _, _⟩ :=
              phaseScan_spec cnt (u + 1) (m + 1) s₁ hin1 (by rw [hsg1.1]; omega)
                (by omega) hfr1
            rw [hsg1.1] at hrun₂
            rw [hb1] at hrun
            simp only [if_pos] at hrun
            rw [hrun₂, Except.ok.injEq, Prod.mk.injEq] at hrun
            obtain ⟨_, hs₂⟩ := hrun
            have hms : mcount s₁ = mcount s + 1 :=
              mcount_succ hsg1.1 u hu1 hu hp hfru t2
            rw [← hs₂]
            omega
        · -- dfs failed at u: the live root is strictly beyond u
          rw [Bool.not_eq_true] at hb1
          have hDfo : DOut u s false s₁ := hb1 ▸ hD
          obtain ⟨hsg1, _, _, _, _, hDff, _⟩ := hDfo
          have hDfalse := hDff rfl
          obtain ⟨hiff1, hnr1⟩ := dfsGo_reach _ _ _ _ (hb1 ▸ hrec) hin hu
          obtain ⟨r, hrge, hrle, hrfree, hrreach⟩ := hroot
          have hrne : r ≠ u := by
            intro heq
            exact hnr1 (heq ▸ hrreach)
          have hin1 : DIn s₁ :=
            DIn_marks hin hsg1 hDfalse.1 hDfalse.2.1
              (fun x hx => (hDfalse.2.2 x hx).1)
          have hfr1 : ∀ x, u + 1 ≤ x → x ≤ s₁.nLeft → s₁.pairU x = 0 →
              s₁.dist x = 0 := by
            intro x hx1 hx2 hx3
            rw [hDfalse.1] at hx3
            have hds : s.dist x = 0 := hfr x (by omega) (hsg1.1 ▸ hx2) hx3
            by_cases hc : s₁.dist x = s.dist x
            · rw [hc, hds]
            · rcases (hDfalse.2.2 x hc).2.2.2.2.1 with h | h
              · omega
              · exact absurd h (by rw [hx3]; exact fun h => h rfl)
          have hms : mcount s₁ = mcount s := mcount_eq hsg1.1 hDfalse.1
          rw [hb1] at hrun
          simp only [Bool.false_eq_true, if_false] at hrun
          have hlt := ih (u + 1) m s₁ hin1 (by rw [hsg1.1]; omega) (by omega) hfr1
            ⟨r, by omega, hsg1.1 ▸ hrle, by rw [hDfalse.1]; exact hrfree,
              (hiff1 r).2 hrreach⟩ m' s'
            (by rw [hsg1.1]; exact hrun)
          omega
    · rw [if_neg hp] at hrun
      obtain ⟨r, hrge, hrle, hrfree, hrreach⟩ := hroot
      have hrne : r ≠ u := by
        intro heq
        rw [heq] at hrfree
        exact hp hrfree
      exact ih (u + 1) m s hin (by omega) (by omega)
        (fun x hx1 hx2 hx3 => hfr x (by omega) hx2 hx3)
        ⟨r, by omega, hrle, hrfree, hrreach⟩ m' s' hrun

theorem DIn_toInv {s : BG} (h : DIn s) : Inv s :=
  ⟨fun u v hv => h.adjB u v hv, h.puR, h.pvR, ⟨h.vm1, h.vm2⟩, h.mfa⟩

theorem mcount_le (g : BG) : mcount g ≤ g.nLeft := by
  calc mcount g ≤ (Finset.Icc 1 g.nLeft).card :=
        Finset.card_le_card (Finset.filter_subset _ _)
  _ = g.nLeft := by rw [Nat.card_Icc]; omega

/-- The facts available when the phase loop exits: the final layering pass
failed, and its layers are recorded in `dist`. -/
def FinalBfs (t : BG) : Prop :=
  t.dist 0 = INF ∧
  (∀ x, 1 ≤ x → x ≤ t.nLeft → t.pairU x = 0 → t.dist x = 0) ∧
  (∀ x, 1 ≤ x → x ≤ t.nLeft → t.dist x ≠ INF →
    ∀ v ∈ t.adj x, t.dist (t.pairV v) ≠ INF)

theorem bfs_run (g : BG) (hpv : pvRange g)
    (hadj : ∀ u v, v ∈ g.adj u → v ≤ g.nRight) :
    ∀ b g', bfs g = .ok (b, g') →
      g' = { g with dist := g'.dist } ∧
      (b = true ↔ g'.dist 0 ≠ INF) ∧
      BInv g g'.dist [] ∧
      (∀ x, x ≤ g.nLeft → g'.dist x ≠ INF → g'.dist x ≤ g.nLeft) := by
  intro b g' hrun
  rw [bfs_head] at hrun
  cases hbl : bfsLoop g (bfsFuel g) (bfsStartD g) (bfsStartQ g) with
  | error e => rw [hbl, errBind] at hrun; cases hrun
  | ok d2 =>
    rw [hbl, okBind, idx_lt _ (Nat.succ_pos _), okBind, Except.ok.injEq,
      Prod.mk.injEq] at hrun
    obtain ⟨hb, hg'⟩ := hrun
    obtain ⟨hfin, _, _⟩ := bfsLoop_run g hpv hadj _ _ _ d2 hbl (bInv_start g)
    have hdist : g'.dist = d2 := by rw [← hg']
    subst hb
    refine ⟨by rw [← hg'], ?_, hdist ▸ hfin, ?_⟩
    · rw [hdist, bne_iff_ne]
    · intro x hx hne
      rw [hdist] at hne ⊢
      have h1 := hfin.bnd x hx hne
      have h2 := kcount_le g d2
      omega

/-! ### The phase loop -/

theorem mmLoop_spec : ∀ fuel m (g : BG), Inv g → g.nLeft + 1 < INF →
    g.nLeft + 1 ≤ fuel + mcount g →
    ∃ k g', mmLoop fuel m g = .ok (k, g') ∧
      SameG g g' ∧ Inv g' ∧
      k + mcount g = m + mcount g' ∧
      (∀ x, g'.pairU x ≠ g.pairU x → 1 ≤ x ∧ x ≤ g.nLeft ∧ g'.pairU x ∈ g.adj x) ∧
      (∀ x, 1 ≤ x → x ≤ g.nLeft → g.pairU x ≠ 0 → g'.pairU x ≠ 0) ∧
      FinalBfs g' := by
  intro fuel
  induction fuel with
  | zero =>
    intro m g hinv hsm hfuel
    have := mcount_le g
    omega
  | succ fuel ih =>
    intro m g hinv hsm hfuel
    obtain ⟨ha, hpu, hpv, hvm, hmfa⟩ := hinv
    have hadj : ∀ u v, v ∈ g.adj u → v ≤ g.nRight := fun u v hv => (ha u v hv).2
    obtain ⟨b, g₁, hbfs, hclos⟩ := bfs_small g hpv hadj hsm
    obtain ⟨hg₁, hflag, hbi, hdb⟩ := bfs_run g hpv hadj b g₁ hbfs
    have hL1 : g₁.nLeft = g.nLeft := by rw [hg₁]
    have hR1 : g₁.nRight = g.nRight := by rw [hg₁]
    have hA1 : g₁.adj = g.adj := by rw [hg₁]
    have hU1 : g₁.pairU = g.pairU := by rw [hg₁]
    have hV1 : g₁.pairV = g.pairV := by rw [hg₁]
    have hms1 : mcount g₁ = mcount g := mcount_eq hL1 hU1
    have hin1 : DIn g₁ := by
      refine ⟨hL1 ▸ hsm, ?_, ?_, ?_, ?_, ?_, ?_, ?_, ?_⟩
      · intro u v hv
        rw [hA1] at hv
        exact hR1 ▸ ha u v hv
      · intro u; rw [hU1, hR1]; exact hpu u
      · intro v; rw [hV1, hL1]; exact hpv v
      · intro u h1 h2 h3
        rw [hU1, hV1] at *
        exact hvm.1 u h1 (hL1 ▸ h2) h3
      · intro v h1 h2 h3
        rw [hU1, hV1] at *
        exact hvm.2 v h1 (hR1 ▸ h2) h3
      · intro u h1 h2 h3
        rw [hU1, hA1] at *
        exact hmfa u h1 (hL1 ▸ h2) h3
      · intro x hx
        rw [hL1] at hx
        exact hbi.dle x hx
      · intro x hx hne
        rw [hL1] at hx ⊢
        exact hdb x hx hne
    have hfr1 : ∀ x, 1 ≤ x → x ≤ g₁.nLeft → g₁.pairU x = 0 → g₁.dist x = 0 := by
      intro x h1 h2 h3
      exact hbi.free0 x h1 (hL1 ▸ h2) (by rw [← hU1]; exact h3)
    rw [mmLoop, hbfs, okBind]
    by_cases hb : b = true
    · rw [hb]
      simp only [if_pos]
      have h0fin : g₁.dist 0 ≠ INF := hflag.1 hb
      have hroot : ∃ r, 1 ≤ r ∧ r ≤ g₁.nLeft ∧ g₁.pairU r = 0 ∧ Reach0 g₁ r := by
        apply exists_free_root g₁
        · intro x hx hxf hx1
          obtain ⟨p, v, c1, c2, c3, c4, c5, c6⟩ :=
            hbi.parent x (hL1 ▸ hx) hxf hx1
          exact ⟨p, v, c1, hL1 ▸ c2, by rw [hA1]; exact c3,
            by rw [hV1]; exact c4, c5, c6⟩
        · intro x hx h0
          obtain ⟨c1, c2⟩ := hbi.zfree x (hL1 ▸ hx) h0
          exact ⟨c1, by rw [hU1]; exact c2⟩
        · exact h0fin
      obtain ⟨m₂, s₂, hrun₂, hsg₂, hin₂, hcnt₂, hmle₂, hchg₂, hmm₂⟩ :=
        phaseScan_spec g₁.nLeft 1 m g₁ hin1 (by omega) (by omega) hfr1
      have hprog := phaseScan_progress g₁.nLeft 1 m g₁ hin1 (by omega) (by omega)
        hfr1 hroot m₂ s₂ hrun₂
      obtain ⟨k, g₂, hrec, hsgF, hinvF, hcntF, hchgF, hmmF, hfinF⟩ :=
        ih m₂ s₂ (DIn_toInv hin₂) (by rw [hsg₂.1, hL1]; exact hsm)
          (by rw [hsg₂.1, hL1]
              have h1 := mcount_le g
              omega)
      refine ⟨k, g₂, ?_, ?_, hinvF, ?_, ?_, ?_, hfinF⟩
      · show (phaseScan (dfsFuel g₁) g₁.nLeft 1 m g₁ >>= fun ms =>
          mmLoop fuel ms.1 ms.2) = .ok (k, g₂)
        have hfd : dfsFuel g₁ = g₁.nLeft + 2 := rfl
        rw [hfd, hrun₂, okBind]
        exact hrec
      · exact ⟨hsgF.1.trans (hsg₂.1.trans hL1),
          hsgF.2.1.trans (hsg₂.2.1.trans hR1),
          hsgF.2.2.trans (hsg₂.2.2.trans hA1)⟩
      · omega
      · intro x hx
        rw [← hU1] at hx
        by_cases hc : g₂.pairU x = s₂.pairU x
        · have hne1 : s₂.pairU x ≠ g₁.pairU x := fun h => hx (hc.trans h)
          obtain ⟨c1, c2, c3⟩ := hchg₂ x hne1
          exact ⟨c1, hL1 ▸ c2, hc ▸ (hA1 ▸ c3)⟩
        · obtain ⟨c1, c2, c3⟩ := hchgF x hc
          rw [hsg₂.1] at c2
          rw [hsg₂.2.2] at c3
          exact ⟨c1, hL1 ▸ c2, hA1 ▸ c3⟩
      · intro x h1 h2 h3
        refine hmmF x h1 (by rw [hsg₂.1, hL1]; exact h2) ?_
        refine hmm₂ x h1 (hL1 ▸ h2) ?_
        rw [hU1]
        exact h3
    · rw [Bool.not_eq_true] at hb
      rw [hb]
      simp only [Bool.false_eq_true, if_false]
      refine ⟨m, g₁, rfl, ⟨hL1, hR1, hA1⟩, DIn_toInv hin1, by omega, ?_, ?_, ?_⟩
      · intro x hx
        rw [hU1] at hx
        exact absurd rfl hx
      · intro x h1 h2 h3
        rw [hU1]
        exact h3
      · refine ⟨?_, ?_, ?_⟩
        · by_contra hne
          have := hflag.2 hne
          rw [hb] at this
          exact Bool.noConfusion this
        · intro x h1 h2 h3
          exact hfr1 x h1 h2 h3
        · intro x h1 h2 h3 v hv
          rw [hV1]
          refine hclos hb x h1 (hL1 ▸ h2) h3 v ?_
          rw [← hA1]
          exact hv

theorem maxMatching_spec (g : BG) (hinv : Inv g) (hsm : g.nLeft + 1 < INF) :
    ∃ k g', maxMatching g = .ok (k, g') ∧
      SameG g g' ∧ Inv g' ∧ k + mcount g = mcount g' ∧
      (∀ x, g'.pairU x ≠ g.pairU x → 1 ≤ x ∧ x ≤ g.nLeft ∧ g'.pairU x ∈ g.adj x) ∧
      (∀ x, 1 ≤ x → x ≤ g.nLeft → g.pairU x ≠ 0 → g'.pairU x ≠ 0) ∧
      FinalBfs g' := by
  obtain ⟨k, g', hrun, hsg, hinv', hcnt, hchg, hmm, hfb⟩ :=
    mmLoop_spec (mmFuel g) 0 g hinv hsm (by unfold mmFuel; omega)
  exact ⟨k, g', hrun, hsg, hinv', by omega, hchg, hmm, hfb⟩

/-! ### Maximality: a König-style cover bound at the final state -/

theorem mcount_mem_iff {t : BG} {x : Nat} :
    (x ∈ (Finset.Icc 1 t.nLeft).filter fun u => t.pairU u ≠ 0) ↔
    (1 ≤ x ∧ x ≤ t.nLeft) ∧ t.pairU x ≠ 0 := by
  rw [Finset.mem_filter, Finset.mem_Icc]

theorem konig_bound (t : BG) (hinv : Inv t) (hfb : FinalBfs t)
    (P : Finset (Nat × Nat)) (hP : IsMatching t P) : P.card ≤ mcount t := by
  obtain ⟨ha, hpu, hpv, hvm, hmfa⟩ := hinv
  obtain ⟨h0inf, hfree0, hclos⟩ := hfb
  obtain ⟨hPe, hPl, hPr⟩ := hP
  set A := (Finset.Icc 1 t.nLeft).filter (fun x => t.dist x = INF) with hA
  set B := (Finset.Icc 1 t.nRight).filter
    (fun v => t.pairV v ≠ 0 ∧ t.dist (t.pairV v) ≠ INF) with hB
  have step1 : P.card ≤ (A.disjSum B).card := by
    refine Finset.card_le_card_of_injOn
      (fun p => if t.dist p.1 = INF then Sum.inl p.1 else Sum.inr p.2) ?_ ?_
    · intro p hp
      obtain ⟨he1, he2, he3⟩ := hPe p hp
      dsimp only
      by_cases hd : t.dist p.1 = INF
      · rw [if_pos hd]
        rw [Finset.inl_mem_disjSum, hA, Finset.mem_filter, Finset.mem_Icc]
        exact ⟨⟨he1, he2⟩, hd⟩
      · rw [if_neg hd]
        have hzfin : t.dist (t.pairV p.2) ≠ INF := hclos p.1 he1 he2 hd p.2 he3
        have hz0 : t.pairV p.2 ≠ 0 := by
          intro hz
          rw [hz] at hzfin
          exact hzfin h0inf
        obtain ⟨hb1, hb2⟩ := ha p.1 p.2 he3
        rw [Finset.inr_mem_disjSum, hB, Finset.mem_filter, Finset.mem_Icc]
        exact ⟨⟨hb1, hb2⟩, hz0, hzfin⟩
    · intro p hp q hq hfe
      dsimp only at hfe
      by_cases hdp : t.dist p.1 = INF <;> by_cases hdq : t.dist q.1 = INF
      · rw [if_pos hdp, if_pos hdq] at hfe
        exact hPl p hp q hq (Sum.inl.inj hfe)
      · rw [if_pos hdp, if_neg hdq] at hfe
        exact absurd hfe (by simp)
      · rw [if_neg hdp, if_pos hdq] at hfe
        exact absurd hfe (by simp)
      · rw [if_neg hdp, if_neg hdq] at hfe
        exact hPr p hp q hq (Sum.inr.inj hfe)
  have step2 : (A.disjSum B).card ≤ mcount t := by
    unfold mcount
    refine Finset.card_le_card_of_injOn (Sum.elim id t.pairV) ?_ ?_
    · intro e he
      rw [Finset.mem_disjSum] at he
      rcases he with ⟨a, haA, hae⟩ | ⟨b, hbB, hbe⟩
      · rw [hA, Finset.mem_filter, Finset.mem_Icc] at haA
        rw [← hae]
        simp only [Sum.elim_inl, id]
        rw [mcount_mem_iff]
        refine ⟨⟨haA.1.1, haA.1.2⟩, ?_⟩
        intro hfree
        have := hfree0 a haA.1.1 haA.1.2 hfree
        rw [this] at haA
        exact INF_pos.ne haA.2
      · rw [hB, Finset.mem_filter, Finset.mem_Icc] at hbB
        rw [← hbe]
        simp only [Sum.elim_inr]
        rw [mcount_mem_iff]
        have hup : t.pairU (t.pairV b) = b :=
          hvm.2 b hbB.1.1 hbB.1.2 hbB.2.1
        refine ⟨⟨by omega, hpv b⟩, ?_⟩
        rw [hup]
        omega
    · intro e he f hf hef
      simp only [Finset.mem_coe, Finset.mem_disjSum] at he hf
      have hAfact : ∀ a, a ∈ A → t.dist a = INF := by
        intro a haA
        rw [hA, Finset.mem_filter] at haA
        exact haA.2
      have hBfact : ∀ b, b ∈ B →
          t.pairV b ≠ 0 ∧ t.dist (t.pairV b) ≠ INF ∧ 1 ≤ b ∧ b ≤ t.nRight := by
        intro b hbB
        rw [hB, Finset.mem_filter, Finset.mem_Icc] at hbB
        exact ⟨hbB.2.1, hbB.2.2, hbB.1.1, hbB.1.2⟩
      rcases he with ⟨a, haA, hae⟩ | ⟨b, hbB, hbe⟩ <;>
        rcases hf with ⟨a2, haA2, hae2⟩ | ⟨b2, hbB2, hbe2⟩
      · rw [← hae, ← hae2] at hef ⊢
        simp only [Sum.elim_inl, id] at hef
        rw [hef]
      · exfalso
        rw [← hae, ← hbe2] at hef
        simp only [Sum.elim_inl, Sum.elim_inr, id] at hef
        obtain ⟨hb0, hbf, _, _⟩ := hBfact b2 hbB2
        rw [← hef] at hbf
        exact hbf (hAfact a haA)
      · exfalso
        rw [← hbe, ← hae2] at hef
        simp only [Sum.elim_inl, Sum.elim_inr, id] at hef
        obtain ⟨hb0, hbf, _, _⟩ := hBfact b hbB
        rw [hef] at hbf
        exact hbf (hAfact a2 haA2)
      · rw [← hbe, ← hbe2] at hef ⊢
        simp only [Sum.elim_inr] at hef
        obtain ⟨hb0, _, h1, h2⟩ := hBfact b hbB
        obtain ⟨hb02, _, h12, h22⟩ := hBfact b2 hbB2
        have e1 : t.pairU (t.pairV b) = b := hvm.2 b h1 h2 hb0
        have e2 : t.pairU (t.pairV b2) = b2 := hvm.2 b2 h12 h22 hb02
        rw [hef] at e1
        rw [e2] at e1
        rw [e1]
  calc P.card ≤ (A.disjSum B).card := step1
  _ ≤ mcount t := step2

/-- Membership in the realised pair set. -/
theorem matchedPairs_mem {t : BG} {p : Nat × Nat} :
    p ∈ matchedPairs t ↔
      (1 ≤ p.1 ∧ p.1 ≤ t.nLeft) ∧ t.pairU p.1 ≠ 0 ∧ p.2 = t.pairU p.1 := by
  unfold matchedPairs
  rw [Finset.mem_image]
  constructor
  · rintro ⟨u, hu, hup⟩
    rw [mcount_mem_iff] at hu
    rw [← hup]
    exact ⟨hu.1, hu.2, rfl⟩
  · rintro ⟨h1, h2, h3⟩
    refine ⟨p.1, ?_, ?_⟩
    · rw [mcount_mem_iff]; exact ⟨h1, h2⟩
    · rw [← h3]

/-- The realised pairs of a valid state form a matching of the stored
graph, and there are exactly `mcount` of them. -/
theorem matchedPairs_is_matching (t : BG) (hinv : Inv t) :
    IsMatching t (matchedPairs t) ∧ (matchedPairs t).card = mcount t := by
  obtain ⟨ha, hpu, hpv, hvm, hmfa⟩ := hinv
  refine ⟨⟨?_, ?_, ?_⟩, ?_⟩
  · intro p hp
    rw [matchedPairs_mem] at hp
    obtain ⟨⟨h1, h2⟩, h0, he⟩ := hp
    refine ⟨h1, h2, ?_⟩
    rw [he]
    exact hmfa p.1 h1 h2 h0
  · intro p hp q hq h1
    rw [matchedPairs_mem] at hp hq
    have h2 : p.2 = q.2 := by rw [hp.2.2, hq.2.2, h1]
    exact Prod.ext h1 h2
  · intro p hp q hq h2
    rw [matchedPairs_mem] at hp hq
    have hb1 : t.pairV p.2 = p.1 := by
      rw [hp.2.2]; exact hvm.1 p.1 hp.1.1 hp.1.2 hp.2.1
    have hb2 : t.pairV q.2 = q.1 := by
      rw [hq.2.2]; exact hvm.1 q.1 hq.1.1 hq.1.2 hq.2.1
    have h1 : p.1 = q.1 := by rw [← hb1, ← hb2, h2]
    exact Prod.ext h1 h2
  · unfold matchedPairs mcount
    apply Finset.card_image_of_injOn
    intro u _ v _ h
    exact congrArg Prod.fst h

/-! ### Re-running the computation on a final state -/

/-- On a state satisfying the final-BFS facts, a fresh `bfs` pass reports
`false` again: every vertex reached by the fresh layering already had a
finite final layer, so the sentinel keeps `INF`. -/
theorem bfs_false_of_finalBfs (t : BG) (hinv : Inv t) (hsm : t.nLeft + 1 < INF)
    (hfb : FinalBfs t) :
    ∃ t', bfs t = .ok (false, t') ∧ t' = { t with dist := t'.dist } := by
  obtain ⟨ha, hpu, hpv, hvm, hmfa⟩ := hinv
  have hadj : ∀ u v, v ∈ t.adj u → v ≤ t.nRight := fun u v hv => (ha u v hv).2
  obtain ⟨b, t', hbfs, hclos⟩ := bfs_small t hpv hadj hsm
  obtain ⟨hsame, hflag, hbi, hdb⟩ := bfs_run t hpv hadj b t' hbfs
  obtain ⟨h0, hfree0, hcl⟩ := hfb
  have base : ∀ x, x ≤ t.nLeft → t'.dist x = 0 → t.dist x ≠ INF := by
    intro x hx hz
    obtain ⟨h1, hfree⟩ := hbi.zfree x hx hz
    rw [hfree0 x h1 hx hfree]
    exact INF_pos.ne
  have key : ∀ n x, x ≤ t.nLeft → t'.dist x ≠ INF → t'.dist x ≤ n →
      t.dist x ≠ INF := by
    intro n
    induction n with
    | zero =>
      intro x hx hfin hle
      exact base x hx (Nat.le_zero.mp hle)
    | succ n ihn =>
      intro x hx hfin hle
      by_cases hz : t'.dist x = 0
      · exact base x hx hz
      · obtain ⟨u, v, hu1, hu2, hv, hpvv, hufin, hdx⟩ :=
          hbi.parent x hx hfin (by omega)
        have hut : t.dist u ≠ INF := ihn u hu2 hufin (by omega)
        have := hcl u hu1 hu2 hut v hv
        rw [hpvv] at this
        exact this
  have hb : b = false := by
    by_contra hbne
    rw [Bool.not_eq_false] at hbne
    have h0f : t'.dist 0 ≠ INF := hflag.1 hbne
    exact key (t'.dist 0) 0 (Nat.zero_le _) h0f (le_refl _) h0
  exact ⟨t', hb ▸ hbfs, hsame⟩

/-- Re-running the matching computation on a final state finds nothing
new: the second call returns count `0` and leaves the pairing untouched. -/
theorem maxMatching_again (t : BG) (hinv : Inv t) (hsm : t.nLeft + 1 < INF)
    (hfb : FinalBfs t) :
    ∃ t', maxMatching t = .ok (0, t') ∧
      t'.pairU = t.pairU ∧ t'.pairV = t.pairV ∧
      t'.nLeft = t.nLeft ∧ t'.nRight = t.nRight ∧ t'.adj = t.adj := by
  obtain ⟨t', hbfs, hsame⟩ := bfs_false_of_finalBfs t hinv hsm hfb
  refine ⟨t', ?_, by rw [hsame], by rw [hsame], by rw [hsame], by rw [hsame],
    by rw [hsame]⟩
  show mmLoop (t.nLeft + 1 + 1) 0 t = .ok (0, t')
  rw [mmLoop, hbfs, okBind]
  rfl

/-! ### The matched-pair listing -/

/-- The listed pairs are exactly the `(u, pairU u)` with `u` in range and
`pairU u` not the sentinel. -/
theorem getMatchingPairs_mem (g : BG) (p : Nat × Nat) :
    p ∈ getMatchingPairs g ↔
      1 ≤ p.1 ∧ p.1 ≤ g.nLeft ∧ g.pairU p.1 ≠ 0 ∧ p.2 = g.pairU p.1 := by
  unfold getMatchingPairs
  rw [List.mem_filterMap]
  constructor
  · rintro ⟨u, hu, hf⟩
    rw [List.mem_range'_1] at hu
    by_cases h0 : g.pairU u ≠ 0
    · rw [if_pos h0, Option.some.injEq] at hf
      rw [← hf]
      exact ⟨hu.1, by omega, h0, rfl⟩
    · rw [if_neg h0] at hf
      cases hf
  · rintro ⟨h1, h2, h3, h4⟩
    refine ⟨p.1, ?_, ?_⟩
    · rw [List.mem_range'_1]; omega
    · rw [if_pos h3, ← h4]

theorem gmp_len_aux (g : BG) : ∀ n,
    ((List.range' 1 n).filterMap fun u =>
      if g.pairU u ≠ 0 then some (u, g.pairU u) else none).length
    = ((Finset.Icc 1 n).filter fun u => g.pairU u ≠ 0).card := by
  intro n
  induction n with
  | zero => simp
  | succ n ihn =>
    rw [List.range'_concat, List.filterMap_append, List.length_append]
    have h1n : 1 + 1 * n = n + 1 := by omega
    rw [h1n]
    have hIcc : Finset.Icc 1 (n + 1) = insert (n + 1) (Finset.Icc 1 n) := by
      ext y
      simp only [Finset.mem_Icc, Finset.mem_insert]
      omega
    have hnm : (n + 1) ∉ (Finset.Icc 1 n).filter fun u => g.pairU u ≠ 0 := by
      simp only [Finset.mem_filter, Finset.mem_Icc]
      omega
    rw [hIcc, Finset.filter_insert]
    by_cases h0 : g.pairU (n + 1) ≠ 0
    · have hcs : (List.filterMap (fun u =>
          if g.pairU u ≠ 0 then some (u, g.pairU u) else none) [n + 1])
          = [(n + 1, g.pairU (n + 1))] := by
        simp [h0]
      rw [if_pos h0, Finset.card_insert_of_not_mem hnm, hcs, ← ihn]
      rfl
    · have h0e : g.pairU (n + 1) = 0 := not_not.mp h0
      have hcs : (List.filterMap (fun u =>
          if g.pairU u ≠ 0 then some (u, g.pairU u) else none) [n + 1])
          = [] := by
        simp [h0e]
      rw [if_neg h0, hcs, ← ihn]
      rfl

/-- The listing has exactly `mcount` entries. -/
theorem getMatchingPairs_length (g : BG) :
    (getMatchingPairs g).length = mcount g := gmp_len_aux g g.nLeft

/-- The listing is strictly increasing in the left vertex id. -/
theorem getMatchingPairs_sorted (g : BG) :
    (getMatchingPairs g).Pairwise fun p q => p.1 < q.1 := by
  unfold getMatchingPairs
  rw [List.pairwise_filterMap]
  refine List.Pairwise.imp ?_ (List.pairwise_lt_range' 1 g.nLeft)
  intro a b hab x hx y hy
  by_cases ha : g.pairU a ≠ 0
  · rw [if_pos ha, Option.mem_def, Option.some.injEq] at hx
    by_cases hb : g.pairU b ≠ 0
    · rw [if_pos hb, Option.mem_def, Option.some.injEq] at hy
      rw [← hx, ← hy]
      exact hab
    · rw [if_neg hb, Option.mem_def] at hy
      cases hy
  · rw [if_neg ha, Option.mem_def] at hx
    cases hx

/-! ### In-bounds container access: the `oob` branch is unreachable -/

theorem bfsNbrs_noOob (g : BG) (u : Nat) (hu : u ≤ g.nLeft) (hpv : pvRange g) :
    ∀ vs d q, (∀ v ∈ vs, v ≤ g.nRight) → (∀ x ∈ q, x ≤ g.nLeft) →
    ∃ d' q', bfsNbrs g u vs d q = .ok (d', q') ∧ ∀ x ∈ q', x ≤ g.nLeft := by
  intro vs
  induction vs with
  | nil =>
    intro d q _ hq
    exact ⟨d, q, rfl, hq⟩
  | cons v vs ih =>
    intro d q hvs hq
    have hv : v < g.nRight + 1 := Nat.lt_succ_of_le (hvs v (List.mem_cons_self v vs))
    have hw : g.pairV v < g.nLeft + 1 := Nat.lt_succ_of_le (hpv v)
    have hu1 : u < g.nLeft + 1 := Nat.lt_succ_of_le hu
    by_cases hcond : d (g.pairV v) = INF
    · obtain ⟨d', q', hrun, hq'⟩ :=
        ih (Function.update d (g.pairV v) (d u + 1)) (q ++ [g.pairV v])
          (fun x hx => hvs x (List.mem_cons_of_mem v hx))
          (fun x hx => by
            rcases List.mem_append.mp hx with h | h
            · exact hq x h
            · rw [List.mem_singleton] at h
              rw [h]
              exact hpv v)
      refine ⟨d', q', ?_, hq'⟩
      rw [bfsNbrs, idx_lt _ hv, okBind, idx_lt _ hw, okBind, if_pos hcond,
        idx_lt _ hu1, okBind, upd_lt _ _ hw, okBind, hrun]
    · obtain ⟨d', q', hrun, hq'⟩ :=
        ih d q (fun x hx => hvs x (List.mem_cons_of_mem v hx)) hq
      refine ⟨d', q', ?_, hq'⟩
      rw [bfsNbrs, idx_lt _ hv, okBind, idx_lt _ hw, okBind, if_neg hcond, hrun]

theorem bfsLoop_noOob (g : BG) (hadj : ∀ u v, v ∈ g.adj u → v ≤ g.nRight)
    (hpv : pvRange g) :
    ∀ fuel d q, (∀ x ∈ q, x ≤ g.nLeft) →
    ∀ e, bfsLoop g fuel d q = .error e → e = HkErr.fuel := by
  intro fuel
  induction fuel with
  | zero =>
    intro d q _ e he
    rw [bfsLoop] at he
    exact (Except.error.inj he).symm
  | succ fuel ih =>
    intro d q hq e he
    match q with
    | [] =>
      rw [bfsLoop] at he
      cases he
    | u :: qt =>
      have hu1 : u < g.nLeft + 1 := Nat.lt_succ_of_le (hq u (List.mem_cons_self u qt))
      have hqt : ∀ x ∈ qt, x ≤ g.nLeft := fun x hx => hq x (List.mem_cons_of_mem u hx)
      rw [bfsLoop, idx_lt _ hu1, okBind, idx_lt _ (Nat.succ_pos _), okBind] at he
      by_cases hcond : d u < d 0
      · rw [if_pos hcond, idx_lt _ hu1, okBind] at he
        obtain ⟨d', q', hrun, hq'⟩ := bfsNbrs_noOob g u (by omega) hpv (g.adj u) d qt
          (fun v hv => hadj u v hv) hqt
        rw [hrun, okBind] at he
        exact ih d' q' hq' e he
      · rw [if_neg hcond] at he
        exact ih d qt hqt e he

theorem bfs_noOob (g : BG) (hadj : ∀ u v, v ∈ g.adj u → v ≤ g.nRight)
    (hpv : pvRange g) :
    (∃ b g', bfs g = .ok (b, g') ∧ g' = { g with dist := g'.dist }) ∨
    bfs g = .error HkErr.fuel := by
  rw [bfs_head]
  cases hbl : bfsLoop g (bfsFuel g) (bfsStartD g) (bfsStartQ g) with
  | error e =>
    right
    rw [errBind]
    have he : e = HkErr.fuel := by
      refine bfsLoop_noOob g hadj hpv _ _ _ ?_ e hbl
      intro x hx
      unfold bfsStartQ at hx
      rw [List.mem_filter] at hx
      have := List.mem_range'_1.mp hx.1
      omega
    rw [he]
  | ok d2 =>
    left
    rw [okBind, idx_lt _ (Nat.succ_pos _), okBind]
    exact ⟨_, _, rfl, rfl⟩

theorem dfsScan_noOob (rec : Nat → BG → M (Bool × BG))
    (hrec : ∀ w (s : BG), (∀ a b, b ∈ s.adj a → b ≤ s.nRight) →
      (∀ a, s.pairU a ≤ s.nRight) → pvRange s → w ≤ s.nLeft →
      (∃ b s', rec w s = .ok (b, s') ∧ s'.nLeft = s.nLeft ∧ s'.nRight = s.nRight ∧
        s'.adj = s.adj ∧ (∀ a, s'.pairU a ≤ s'.nRight) ∧ pvRange s') ∨
      rec w s = .error HkErr.fuel) :
    ∀ vs u (s : BG), (∀ a b, b ∈ s.adj a → b ≤ s.nRight) →
      (∀ a, s.pairU a ≤ s.nRight) → pvRange s → u ≤ s.nLeft →
      (∀ v ∈ vs, v ≤ s.nRight) →
      (∃ b s', dfsScan rec u vs s = .ok (b, s') ∧ s'.nLeft = s.nLeft ∧
        s'.nRight = s.nRight ∧ s'.adj = s.adj ∧
        (∀ a, s'.pairU a ≤ s'.nRight) ∧ pvRange s') ∨
      dfsScan rec u vs s = .error HkErr.fuel := by
  intro vs
  induction vs with
  | nil =>
    intro u s ha hpu hpv hu hvs
    left
    rw [dfsScan, upd_lt _ _ (Nat.lt_succ_of_le hu), okBind]
    exact ⟨false, _, rfl, rfl, rfl, rfl, hpu, hpv⟩
  | cons v vs ihs =>
    intro u s ha hpu hpv hu hvs
    have hv2 : v ≤ s.nRight := hvs v (List.mem_cons_self v vs)
    have hw : s.pairV v ≤ s.nLeft := hpv v
    have hvs' : ∀ x ∈ vs, x ≤ s.nRight := fun x hx => hvs x (List.mem_cons_of_mem v hx)
    rw [dfsScan, idx_lt _ (Nat.lt_succ_of_le hv2), okBind,
      idx_lt _ (Nat.lt_succ_of_le hw), okBind, idx_lt _ (Nat.lt_succ_of_le hu), okBind]
    by_cases hcond : s.dist (s.pairV v) = s.dist u + 1
    · rw [if_pos hcond]
      rcases hrec (s.pairV v) s ha hpu hpv hw with
        ⟨b₁, s₁, hrec1, hL, hR, hA, hpu1, hpv1⟩ | hrec1
      · rw [hrec1, okBind]
        by_cases hb1 : b₁ = true
        · left
          rw [hb1]
          simp only [if_pos]
          rw [upd_lt _ _ (by rw [hL]; exact Nat.lt_succ_of_le hu), okBind,
            upd_lt _ _ (by rw [hR]; exact Nat.lt_succ_of_le hv2), okBind]
          refine ⟨true, _, rfl, hL, hR, hA, ?_, ?_⟩
          · intro a
            show Function.update s₁.pairU u v a ≤ s₁.nRight
            by_cases hau : a = u
            · rw [hau, Function.update_same, hR]
              exact hv2
            · rw [Function.update_noteq hau]
              exact hpu1 a
          · intro a
            show Function.update s₁.pairV v u a ≤ s₁.nLeft
            by_cases hav : a = v
            · rw [hav, Function.update_same, hL]
              exact hu
            · rw [Function.update_noteq hav]
              exact hpv1 a
        · rw [Bool.not_eq_true] at hb1
          rw [hb1]
          simp only [Bool.false_eq_true, if_false]
          have ha1 : ∀ a b, b ∈ s₁.adj a → b ≤ s₁.nRight := by
            intro a b hb
            rw [hR]
            refine ha a b ?_
            rw [← hA]
            exact hb
          rcases ihs u s₁ ha1 hpu1 hpv1 (by rw [hL]; exact hu)
              (fun x hx => by rw [hR]; exact hvs' x hx) with
            ⟨b₂, s₂, h2, c1, c2, c3, c4, c5⟩ | h2
          · exact Or.inl ⟨b₂, s₂, h2, c1.trans hL, c2.trans hR, c3.trans hA, c4, c5⟩
          · exact Or.inr h2
      · rw [hrec1, errBind]
        right
        rfl
    · rw [if_neg hcond]
      exact ihs u s ha hpu hpv hu hvs'

theorem dfsGo_noOob : ∀ fuel u (s : BG), (∀ a b, b ∈ s.adj a → b ≤ s.nRight) →
    (∀ a, s.pairU a ≤ s.nRight) → pvRange s → u ≤ s.nLeft →
    (∃ b s', dfsGo fuel u s = .ok (b, s') ∧ s'.nLeft = s.nLeft ∧
      s'.nRight = s.nRight ∧ s'.adj = s.adj ∧
      (∀ a, s'.pairU a ≤ s'.nRight) ∧ pvRange s') ∨
    dfsGo fuel u s = .error HkErr.fuel := by
  intro fuel
  induction fuel with
  | zero =>
    intro u s _ _ _ _
    right
    rfl
  | succ fuel ih =>
    intro u s ha hpu hpv hu
    rw [dfsGo]
    by_cases hu0 : u = 0
    · left
      rw [if_pos hu0]
      exact ⟨true, s, rfl, rfl, rfl, rfl, hpu, hpv⟩
    · rw [if_neg hu0, idx_lt _ (Nat.lt_succ_of_le hu), okBind]
      exact dfsScan_noOob (dfsGo fuel)
        (fun w s' ha' hpu' hpv' hw => ih w s' ha' hpu' hpv' hw)
        (s.adj u) u s ha hpu hpv hu (fun v hv => ha u v hv)

theorem phaseScan_noOob (fuelD : Nat) : ∀ cnt u m (s : BG),
    (∀ a b, b ∈ s.adj a → b ≤ s.nRight) → (∀ a, s.pairU a ≤ s.nRight) → pvRange s →
    u + cnt ≤ s.nLeft + 1 →
    (∃ k s', phaseScan fuelD cnt u m s = .ok (k, s') ∧ s'.nLeft = s.nLeft ∧
      s'.nRight = s.nRight ∧ s'.adj = s.adj ∧
      (∀ a, s'.pairU a ≤ s'.nRight) ∧ pvRange s') ∨
    phaseScan fuelD cnt u m s = .error HkErr.fuel := by
  intro cnt
  induction cnt with
  | zero =>
    intro u m s _ hpu hpv _
    left
    exact ⟨m, s, rfl, rfl, rfl, rfl, hpu, hpv⟩
  | succ cnt ih =>
    intro u m s ha hpu hpv hcnt
    rw [phaseScan, idx_lt _ (by omega), okBind]
    by_cases hp : s.pairU u = 0
    · rw [if_pos hp]
      rcases dfsGo_noOob fuelD u s ha hpu hpv (by omega) with
        ⟨b, s₁, h1, hL, hR, hA, hpu1, hpv1⟩ | h1
      · rw [h1, okBind]
        dsimp only
        have ha1 : ∀ a b, b ∈ s₁.adj a → b ≤ s₁.nRight := by
          intro a b hb
          rw [hR]
          refine ha a b ?_
          rw [← hA]
          exact hb
        by_cases hb : b = true
        · rw [if_pos hb]
          rcases ih (u + 1) (m + 1) s₁ ha1 hpu1 hpv1 (by rw [hL]; omega) with
            ⟨k, s₂, h2, c1, c2, c3, c4, c5⟩ | h2
          · exact Or.inl ⟨k, s₂, h2, c1.trans hL, c2.trans hR, c3.trans hA, c4, c5⟩
          · exact Or.inr h2
        · rw [if_neg hb]
          rcases ih (u + 1) m s₁ ha1 hpu1 hpv1 (by rw [hL]; omega) with
            ⟨k, s₂, h2, c1, c2, c3, c4, c5⟩ | h2
          · exact Or.inl ⟨k, s₂, h2, c1.trans hL, c2.trans hR, c3.trans hA, c4, c5⟩
          · exact Or.inr h2
      · rw [h1, errBind]
        right
        rfl
    · rw [if_neg hp]
      exact ih (u + 1) m s ha hpu hpv (by omega)

theorem mmLoop_noOob : ∀ fuel m (g : BG),
    (∀ a b, b ∈ g.adj a → b ≤ g.nRight) → (∀ a, g.pairU a ≤ g.nRight) → pvRange g →
    (∃ k g', mmLoop fuel m g = .ok (k, g') ∧ g'.nLeft = g.nLeft ∧
      g'.nRight = g.nRight ∧ g'.adj = g.adj ∧
      (∀ a, g'.pairU a ≤ g'.nRight) ∧ pvRange g') ∨
    mmLoop fuel m g = .error HkErr.fuel := by
  intro fuel
  induction fuel with
  | zero =>
    intro m g _ _ _
    right
    rfl
  | succ fuel ih =>
    intro m g ha hpu hpv
    rw [mmLoop]
    rcases bfs_noOob g ha hpv with ⟨b, g₁, hbfs, hshape⟩ | hbfs
    · rw [hbfs, okBind]
      dsimp only
      have hL : g₁.nLeft = g.nLeft := by rw [hshape]
      have hR : g₁.nRight = g.nRight := by rw [hshape]
      have hA : g₁.adj = g.adj := by rw [hshape]
      have hpu1 : ∀ a, g₁.pairU a ≤ g₁.nRight := by
        intro a
        rw [hshape]
        exact hpu a
      have hpv1 : pvRange g₁ := by
        intro a
        rw [hshape]
        exact hpv a
      have ha1 : ∀ a b, b ∈ g₁.adj a → b ≤ g₁.nRight := by
        intro a b hb
        rw [hR]
        refine ha a b ?_
        rw [← hA]
        exact hb
      by_cases hb : b = true
      · rw [if_pos hb]
        rcases phaseScan_noOob (dfsFuel g₁) g₁.nLeft 1 m g₁ ha1 hpu1 hpv1 (by omega) with
          ⟨k, s₂, h2, c1, c2, c3, c4, c5⟩ | h2
        · rw [h2, okBind]
          dsimp only
          have ha2 : ∀ a b, b ∈ s₂.adj a → b ≤ s₂.nRight := by
            intro a b hb2
            rw [c2]
            refine ha1 a b ?_
            rw [← c3]
            exact hb2
          rcases ih k s₂ ha2 c4 c5 with ⟨k', g', h3, d1, d2, d3, d4, d5⟩ | h3
          · exact Or.inl ⟨k', g', h3, d1.trans (c1.trans hL), d2.trans (c2.trans hR),
              d3.trans (c3.trans hA), d4, d5⟩
          · exact Or.inr h3
        · rw [h2, errBind]
          right
          rfl
      · rw [if_neg hb]
        exact Or.inl ⟨m, g₁, rfl, hL, hR, hA, hpu1, hpv1⟩
    · rw [hbfs, errBind]
      right
      rfl

theorem maxMatching_noOob (g : BG)
    (ha : ∀ a b, b ∈ g.adj a → b ≤ g.nRight) (hpu : ∀ a, g.pairU a ≤ g.nRight)
    (hpv : pvRange g) :
    (∃ k g', maxMatching g = .ok (k, g') ∧ g'.nLeft = g.nLeft ∧
      g'.nRight = g.nRight ∧ g'.adj = g.adj ∧
      (∀ a, g'.pairU a ≤ g'.nRight) ∧ pvRange g') ∨
    maxMatching g = .error HkErr.fuel :=
  mmLoop_noOob (mmFuel g) 0 g ha hpu hpv

/-! ### Range facts at every reachable state -/

theorem addEdge_adjBound {g : BG} (ha : adjBound g) (u v : Int) :
    adjBound (addEdge g u v) := by
  unfold addEdge
  by_cases hc : invalidEdge g u v
  · simpa [hc] using ha
  · rw [Bool.not_eq_true] at hc
    obtain ⟨h1, h2, h3, h4⟩ := invalidEdge_false hc
    simp only [hc, Bool.false_eq_true, if_false]
    dsimp only [adjBound]
    intro x w hw
    by_cases hx : x = u.toNat
    · subst hx
      simp only [Function.update_same] at hw
      rcases List.mem_append.1 hw with hw | hw
      · exact ha _ _ hw
      · simp only [List.mem_singleton] at hw
        subst hw
        exact ⟨h3, h4⟩
    · rw [Function.update_noteq hx] at hw
      exact ha _ _ hw

theorem reachable_ranges : ∀ g : BG, Reachable g →
    adjBound g ∧ (∀ a, g.pairU a ≤ g.nRight) ∧ pvRange g := by
  intro g hr
  induction hr with
  | mk l r =>
    refine ⟨?_, ?_, ?_⟩
    · intro a b hb
      simp [mkBG] at hb
    · intro a
      simp [mkBG]
    · intro a
      simp [mkBG, pvRange]
  | add g u v _ ih =>
    obtain ⟨ha, hpu, hpv⟩ := ih
    obtain ⟨haL, haR, hpuE, hpvE, _⟩ := addEdge_pres g u v
    refine ⟨addEdge_adjBound ha u v, ?_, ?_⟩
    · intro a
      rw [hpuE, haR]
      exact hpu a
    · intro a
      show (addEdge g u v).pairV a ≤ (addEdge g u v).nLeft
      rw [hpvE, haL]
      exact hpv a
  | run g k g' _ hrun ih =>
    obtain ⟨ha, hpu, hpv⟩ := ih
    rcases maxMatching_noOob g (fun a b hb => (ha a b hb).2) hpu hpv with
      ⟨k₀, g₀, h0, hL, hR, hA, hpu0, hpv0⟩ | h0
    · rw [hrun] at h0
      obtain ⟨hk, hg⟩ := Prod.mk.injEq .. ▸ Except.ok.inj h0
      rw [← hg] at hL hR hA hpu0 hpv0
      refine ⟨?_, hpu0, hpv0⟩
      intro a b hb
      rw [hR]
      refine ha a b ?_
      rw [← hA]
      exact hb
    · rw [hrun] at h0
      cases h0

/-- Every state reached through the public interface satisfies the engine
invariant, in the regime where the part size stays below the sentinel. -/
theorem reachable_inv : ∀ g : BG, Reachable g → g.nLeft + 1 < INF → Inv g := by
  intro g hr
  induction hr with
  | mk l r =>
    intro _
    exact mkBG_inv l r
  | add g u v _ ih =>
    intro hsm
    obtain ⟨hL, _, _, _, _⟩ := addEdge_pres g u v
    refine addEdge_inv (ih ?_) u v
    rw [hL] at hsm
    exact hsm
  | run g k g' hg hrun ih =>
    intro hsm
    obtain ⟨ha, hpu, hpv⟩ := reachable_ranges g hg
    rcases maxMatching_noOob g (fun a b hb => (ha a b hb).2) hpu hpv with
      ⟨k₀, g₀, h0, hL, _, _, _, _⟩ | h0
    · rw [hrun] at h0
      obtain ⟨hk, hgE⟩ := Prod.mk.injEq .. ▸ Except.ok.inj h0
      rw [← hgE] at hL
      have hsm' : g.nLeft + 1 < INF := by rw [← hL]; exact hsm
      obtain ⟨k₁, g₁, h1, _, hinv1, _, _, _, _⟩ := maxMatching_spec g (ih hsm') hsm'
      rw [hrun] at h1
      obtain ⟨_, hg1⟩ := Prod.mk.injEq .. ▸ Except.ok.inj h1
      rw [← hg1] at hinv1
      exact hinv1
    · rw [hrun] at h0
      cases h0

/-! ### Monotonicity in the edge set -/

theorem buildBG_snoc (l r : Nat) (es : List (Int × Int)) (e : Int × Int) :
    buildBG l r (es ++ [e]) = addEdge (buildBG l r es) e.1 e.2 := by
  unfold buildBG
  rw [List.foldl_append]
  rfl

theorem addEdge_adj_mono (g : BG) (u v : Int) (x w : Nat) (hw : w ∈ g.adj x) :
    w ∈ (addEdge g u v).adj x := by
  rw [addEdge]
  by_cases hc : invalidEdge g u v
  · rw [if_pos hc]
    exact hw
  · rw [Bool.not_eq_true] at hc
    simp only [hc, Bool.false_eq_true, if_false]
    by_cases hx : x = u.toNat
    · subst hx
      rw [Function.update_same]
      exact List.mem_append_left _ hw
    · rw [Function.update_noteq hx]
      exact hw

theorem isMatching_of_le {g h : BG} (hL : g.nLeft ≤ h.nLeft)
    (hadj : ∀ x w, w ∈ g.adj x → w ∈ h.adj x) {P : Finset (Nat × Nat)}
    (hP : IsMatching g P) : IsMatching h P := by
  obtain ⟨he, hl, hr⟩ := hP
  refine ⟨fun p hp => ?_, hl, hr⟩
  obtain ⟨e1, e2, e3⟩ := he p hp
  exact ⟨e1, le_trans e2 hL, hadj _ _ e3⟩

theorem maxMatching_mono (l r : Nat) (es : List (Int × Int)) (u v : Int)
    (hsm : l + 1 < INF) (k₁ : Nat) (t₁ : BG) (k₂ : Nat) (t₂ : BG)
    (h1 : maxMatching (buildBG l r es) = .ok (k₁, t₁))
    (h2 : maxMatching (buildBG l r (es ++ [(u, v)])) = .ok (k₂, t₂)) :
    k₁ ≤ k₂ := by
  obtain ⟨p1L, p1R, p1U, _, _⟩ := buildBG_pres l r es
  obtain ⟨p2L, p2R, p2U, _, _⟩ := buildBG_pres l r (es ++ [(u, v)])
  obtain ⟨k₁', t₁', h1', hsg1, hinv1, hcnt1, _, _, _⟩ :=
    maxMatching_spec (buildBG l r es) (buildBG_inv l r es) (by rw [p1L]; exact hsm)
  obtain ⟨k₂', t₂', h2', hsg2, hinv2, hcnt2, _, _, hfb2⟩ :=
    maxMatching_spec (buildBG l r (es ++ [(u, v)]))
      (buildBG_inv l r (es ++ [(u, v)])) (by rw [p2L]; exact hsm)
  rw [h1] at h1'
  rw [h2] at h2'
  obtain ⟨hk1, ht1⟩ := Prod.mk.injEq .. ▸ Except.ok.inj h1'
  obtain ⟨hk2, ht2⟩ := Prod.mk.injEq .. ▸ Except.ok.inj h2'
  have hc1 : k₁' = mcount t₁' := by
    have := mcount_buildBG l r es
    omega
  have hc2 : k₂' = mcount t₂' := by
    have := mcount_buildBG l r (es ++ [(u, v)])
    omega
  obtain ⟨hPm, hPc⟩ := matchedPairs_is_matching t₁' hinv1
  have hPm2 : IsMatching t₂' (matchedPairs t₁') := by
    refine isMatching_of_le ?_ ?_ hPm
    · rw [hsg1.1, p1L, ← p2L, ← hsg2.1]
    · intro x w hw
      rw [hsg2.2.2, buildBG_snoc]
      refine addEdge_adj_mono (buildBG l r es) u v x w ?_
      rw [← hsg1.2.2]
      exact hw
  have hbound := konig_bound t₂' hinv2 hfb2 (matchedPairs t₁') hPm2
  rw [hPc, ← hc1, ← hc2] at hbound
  omega

/-! ### The validity properties the specification groups together -/

/-- The pairing-validity package: the pairing arrays are mutually inverse
on matched vertices, every stored value is the sentinel or an in-range
vertex id, and the realised pairs form a matching (no left or right vertex
in two pairs). -/
def ValidPairing (s : BG) : Prop :=
  (∀ u, 1 ≤ u → u ≤ s.nLeft → s.pairU u ≠ 0 → s.pairV (s.pairU u) = u) ∧
  (∀ v, 1 ≤ v → v ≤ s.nRight → s.pairV v ≠ 0 → s.pairU (s.pairV v) = v) ∧
  (∀ u, s.pairU u ≤ s.nRight) ∧ (∀ v, s.pairV v ≤ s.nLeft) ∧
  IsMatching s (matchedPairs s)

theorem inv_validPairing {s : BG} (hinv : Inv s) : ValidPairing s := by
  obtain ⟨ha, hpu, hpv, hvm, hmfa⟩ := hinv
  exact ⟨hvm.1, hvm.2, hpu, hpv,
    (matchedPairs_is_matching s ⟨ha, hpu, hpv, hvm, hmfa⟩).1⟩

theorem getMatchingPairs_congr {s t : BG} (hL : s.nLeft = t.nLeft)
    (hU : s.pairU = t.pairU) : getMatchingPairs s = getMatchingPairs t := by
  unfold getMatchingPairs
  rw [hL, hU]

/-! ### The claims -/

/-- C1: for every engine constructed with `leftCount, rightCount ≥ 0` and any
sequence of `addEdge` calls (part size below the sentinel), the value returned
by `maxMatching` is the size of a maximum matching of the accepted edges: it
is realised by an actual matching, and no matching of the graph has more
edges. -/
theorem claim_C1 (l r : Nat) (es : List (Int × Int)) (hsm : l + 1 < INF)
    (k : Nat) (t : BG) (hrun : maxMatching (buildBG l r es) = .ok (k, t)) :
    (∃ P, IsMatching (buildBG l r es) P ∧ P.card = k) ∧
    ∀ P, IsMatching (buildBG l r es) P → P.card ≤ k := by
  obtain ⟨pL, _, _, _, _⟩ := buildBG_pres l r es
  obtain ⟨k', t', h', hsg, hinv', hcnt, _, _, hfb⟩ :=
    maxMatching_spec _ (buildBG_inv l r es) (by rw [pL]; exact hsm)
  rw [hrun] at h'
  obtain ⟨hk, ht⟩ := Prod.mk.injEq .. ▸ Except.ok.inj h'
  have h0 := mcount_buildBG l r es
  have hc : k' = mcount t' := by omega
  obtain ⟨hPm, hPc⟩ := matchedPairs_is_matching t' hinv'
  constructor
  · refine ⟨matchedPairs t', ?_, ?_⟩
    · refine isMatching_of_le (le_of_eq hsg.1) ?_ hPm
      intro x w hw
      rw [← hsg.2.2]
      exact hw
    · rw [hPc]
      omega
  · intro P hP
    have hP2 : IsMatching t' P :=
      isMatching_of_le (le_of_eq hsg.1.symm)
        (fun x w hw => by rw [hsg.2.2]; exact hw) hP
    have := konig_bound t' hinv' hfb P hP2
    omega

theorem claim_C1_witness :
    2 + 1 < INF ∧
    ((∃ P, IsMatching (buildBG 2 2 [(1, 1), (1, 2), (2, 1)]) P ∧ P.card = 2) ∧
      ∀ P, IsMatching (buildBG 2 2 [(1, 1), (1, 2), (2, 1)]) P → P.card ≤ 2) :=
  ⟨by decide, claim_C1 2 2 [(1, 1), (1, 2), (2, 1)] (by decide) 2
    (((maxMatching (buildBG 2 2 [(1, 1), (1, 2), (2, 1)])).toOption.getD
      (0, mkBG 0 0)).2) rfl⟩

/-- C2: after every phase of the computation (one layering pass followed by
the augmentation pass), and after `maxMatching` returns, the pairing state is
a valid matching: `pairU[u] = v` iff `pairV[v] = u` for matched pairs, every
stored pair value is the sentinel `0` or an in-range vertex id, and no left
or right vertex appears in more than one matched pair. -/
theorem claim_C2 (g : BG) (hinv : Inv g) (hsm : g.nLeft + 1 < INF) :
    (∀ b g₁ m m' s, bfs g = .ok (b, g₁) →
      phaseScan (dfsFuel g₁) g₁.nLeft 1 m g₁ = .ok (m', s) → ValidPairing s) ∧
    (∀ k t, maxMatching g = .ok (k, t) → ValidPairing t) := by
  constructor
  · intro b g₁ m m' s hbfs hps
    obtain ⟨ha, hpu, hpv, hvm, hmfa⟩ := hinv
    have hadj : ∀ u v, v ∈ g.adj u → v ≤ g.nRight := fun u v hv => (ha u v hv).2
    obtain ⟨hg₁, hflag, hbi, hdb⟩ := bfs_run g hpv hadj b g₁ hbfs
    have hL1 : g₁.nLeft = g.nLeft := by rw [hg₁]
    have hR1 : g₁.nRight = g.nRight := by rw [hg₁]
    have hA1 : g₁.adj = g.adj := by rw [hg₁]
    have hU1 : g₁.pairU = g.pairU := by rw [hg₁]
    have hV1 : g₁.pairV = g.pairV := by rw [hg₁]
    have hin1 : DIn g₁ := by
      refine ⟨hL1 ▸ hsm, ?_, ?_, ?_, ?_, ?_, ?_, ?_, ?_⟩
      · intro u v hv
        rw [hA1] at hv
        exact hR1 ▸ ha u v hv
      · intro u; rw [hU1, hR1]; exact hpu u
      · intro v; rw [hV1, hL1]; exact hpv v
      · intro u h1 h2 h3
        rw [hU1, hV1] at *
        exact hvm.1 u h1 (hL1 ▸ h2) h3
      · intro v h1 h2 h3
        rw [hU1, hV1] at *
        exact hvm.2 v h1 (hR1 ▸ h2) h3
      · intro u h1 h2 h3
        rw [hU1, hA1] at *
        exact hmfa u h1 (hL1 ▸ h2) h3
      · intro x hx
        rw [hL1] at hx
        exact hbi.dle x hx
      · intro x hx hne
        rw [hL1] at hx ⊢
        exact hdb x hx hne
    have hfr1 : ∀ x, 1 ≤ x → x ≤ g₁.nLeft → g₁.pairU x = 0 → g₁.dist x = 0 := by
      intro x h1 h2 h3
      exact hbi.free0 x h1 (hL1 ▸ h2) (by rw [← hU1]; exact h3)
    obtain ⟨m₂, s₂, hrun₂, _, hin₂, _, _, _, _⟩ :=
      phaseScan_spec g₁.nLeft 1 m g₁ hin1 (by omega) (by omega) hfr1
    have hfd : dfsFuel g₁ = g₁.nLeft + 2 := rfl
    rw [hfd, hrun₂] at hps
    obtain ⟨hm, hs⟩ := Prod.mk.injEq .. ▸ Except.ok.inj hps
    rw [← hs]
    exact inv_validPairing (DIn_toInv hin₂)
  · intro k t hrun
    obtain ⟨k', t', h', _, hinv', _, _, _, _⟩ := maxMatching_spec g hinv hsm
    rw [hrun] at h'
    obtain ⟨_, ht⟩ := Prod.mk.injEq .. ▸ Except.ok.inj h'
    rw [ht]
    exact inv_validPairing hinv'

theorem claim_C2_witness :
    ValidPairing
      (((maxMatching (buildBG 1 1 [(1, 1)])).toOption.getD (0, mkBG 0 0)).2) :=
  (claim_C2 (buildBG 1 1 [(1, 1)]) (buildBG_inv 1 1 [(1, 1)]) (by decide)).2 1
    (((maxMatching (buildBG 1 1 [(1, 1)])).toOption.getD (0, mkBG 0 0)).2) rfl

/-- C3: for every validly constructed engine whose part size stays below the
sentinel, the matching computation terminates successfully: a result is
returned, neither the fuel of the embedded loops nor any failure mode is
hit. -/
theorem claim_C3 (l r : Nat) (es : List (Int × Int)) (hsm : l + 1 < INF) :
    ∃ k t, maxMatching (buildBG l r es) = .ok (k, t) := by
  obtain ⟨pL, _, _, _, _⟩ := buildBG_pres l r es
  obtain ⟨k, t, h, _⟩ := maxMatching_spec _ (buildBG_inv l r es)
    (by rw [pL]; exact hsm)
  exact ⟨k, t, h⟩

theorem claim_C3_witness :
    ∃ k t, maxMatching (buildBG 1 1 [(1, 1)]) = .ok (k, t) :=
  claim_C3 1 1 [(1, 1)] (by decide)

/-- C4: after `maxMatching` returns value `k`, the pair listing has exactly
`k` entries. -/
theorem claim_C4 (l r : Nat) (es : List (Int × Int)) (hsm : l + 1 < INF)
    (k : Nat) (t : BG) (hrun : maxMatching (buildBG l r es) = .ok (k, t)) :
    (getMatchingPairs t).length = k := by
  obtain ⟨pL, _, _, _, _⟩ := buildBG_pres l r es
  obtain ⟨k', t', h', _, _, hcnt, _, _, _⟩ :=
    maxMatching_spec _ (buildBG_inv l r es) (by rw [pL]; exact hsm)
  rw [hrun] at h'
  obtain ⟨hk, ht⟩ := Prod.mk.injEq .. ▸ Except.ok.inj h'
  have h0 := mcount_buildBG l r es
  rw [ht, getMatchingPairs_length]
  omega

theorem claim_C4_witness :
    (getMatchingPairs
      (((maxMatching (buildBG 2 2 [(1, 1), (1, 2), (2, 1)])).toOption.getD
        (0, mkBG 0 0)).2)).length = 2 :=
  claim_C4 2 2 [(1, 1), (1, 2), (2, 1)] (by decide) 2
    (((maxMatching (buildBG 2 2 [(1, 1), (1, 2), (2, 1)])).toOption.getD
      (0, mkBG 0 0)).2) rfl

/-- C5 (amended): a second `maxMatching` call on the state left by the first
does NOT return the same count — it returns `0`, because the match counter
restarts while no augmenting path remains.  The pair set, however, is
unchanged, so only the count half of the spec sentence fails (see the
counterexample). -/
theorem claim_C5 (l r : Nat) (es : List (Int × Int)) (hsm : l + 1 < INF)
    (k : Nat) (t : BG) (hrun : maxMatching (buildBG l r es) = .ok (k, t)) :
    ∃ t₂, maxMatching t = .ok (0, t₂) ∧ t₂.pairU = t.pairU ∧
      t₂.pairV = t.pairV ∧ getMatchingPairs t₂ = getMatchingPairs t := by
  obtain ⟨pL, _, _, _, _⟩ := buildBG_pres l r es
  obtain ⟨k', t', h', hsg, hinv', _, _, _, hfb⟩ :=
    maxMatching_spec _ (buildBG_inv l r es) (by rw [pL]; exact hsm)
  rw [hrun] at h'
  obtain ⟨hk, ht⟩ := Prod.mk.injEq .. ▸ Except.ok.inj h'
  rw [ht]
  have hsmt : t'.nLeft + 1 < INF := by rw [hsg.1, pL]; exact hsm
  obtain ⟨t₂, hrun2, hU2, hV2, hL2, _, _⟩ := maxMatching_again t' hinv' hsmt hfb
  exact ⟨t₂, hrun2, hU2, hV2, getMatchingPairs_congr hL2 hU2⟩

theorem claim_C5_witness :
    ∃ t₂, maxMatching
        (((maxMatching (buildBG 1 1 [(1, 1)])).toOption.getD (0, mkBG 0 0)).2) =
        .ok (0, t₂) ∧
      t₂.pairU =
        (((maxMatching (buildBG 1 1 [(1, 1)])).toOption.getD (0, mkBG 0 0)).2).pairU ∧
      t₂.pairV =
        (((maxMatching (buildBG 1 1 [(1, 1)])).toOption.getD (0, mkBG 0 0)).2).pairV ∧
      getMatchingPairs t₂ =
        getMatchingPairs
          (((maxMatching (buildBG 1 1 [(1, 1)])).toOption.getD (0, mkBG 0 0)).2) :=
  claim_C5 1 1 [(1, 1)] (by decide) 1
    (((maxMatching (buildBG 1 1 [(1, 1)])).toOption.getD (0, mkBG 0 0)).2) rfl

/-- C5, counterexample to the spec sentence as stated: on the single-edge
engine the first call returns count `1` but the second call returns `0`. -/
theorem claim_C5_counterexample :
    (maxMatching (buildBG 1 1 [(1, 1)])).toOption.map Prod.fst = some 1 ∧
    ((maxMatching (buildBG 1 1 [(1, 1)])).toOption.elim 0
      fun p => (maxMatching p.2).toOption.elim 0 Prod.fst) = 0 :=
  ⟨rfl, rfl⟩

/-- C6: an `addEdge` call with an endpoint out of range trips the validation
test (the reported `InvalidEdge` condition) and leaves the engine state
entirely unchanged, so every later operation behaves as if the call had never
been made. -/
theorem claim_C6 (g : BG) (u v : Int)
    (hout : u < 1 ∨ (g.nLeft : Int) < u ∨ v < 1 ∨ (g.nRight : Int) < v) :
    invalidEdge g u v = true ∧ addEdge g u v = g := by
  have hc : invalidEdge g u v = true := by
    simp only [invalidEdge, Bool.or_eq_true, decide_eq_true_eq]
    tauto
  refine ⟨hc, ?_⟩
  rw [addEdge, if_pos hc]

theorem claim_C6_witness :
    invalidEdge (buildBG 2 2 ([] : List (Int × Int))) 0 1 = true ∧
    addEdge (buildBG 2 2 ([] : List (Int × Int))) 0 1 =
      buildBG 2 2 ([] : List (Int × Int)) :=
  claim_C6 (buildBG 2 2 ([] : List (Int × Int))) 0 1 (Or.inl (by decide))

/-- C7: the pair listing is strictly increasing in the left vertex id; it
holds exactly the `(u, pairU u)` with `pairU u` not the sentinel; each listed
pair is in range and is one of the accepted edges; and before any run it is
empty. -/
theorem claim_C7 (l r : Nat) (es : List (Int × Int)) (hsm : l + 1 < INF) :
    getMatchingPairs (buildBG l r es) = [] ∧
    ∀ k t, maxMatching (buildBG l r es) = .ok (k, t) →
      ((getMatchingPairs t).Pairwise fun p q => p.1 < q.1) ∧
      (∀ p : Nat × Nat, p ∈ getMatchingPairs t ↔
        1 ≤ p.1 ∧ p.1 ≤ l ∧ t.pairU p.1 ≠ 0 ∧ p.2 = t.pairU p.1) ∧
      (∀ p ∈ getMatchingPairs t, 1 ≤ p.1 ∧ p.1 ≤ l ∧ 1 ≤ p.2 ∧ p.2 ≤ r ∧
        p.2 ∈ (buildBG l r es).adj p.1) := by
  obtain ⟨pL, pR, _, _, _⟩ := buildBG_pres l r es
  refine ⟨getMatchingPairs_buildBG l r es, ?_⟩
  intro k t hrun
  obtain ⟨k', t', h', hsg, hinv', _, _, _, _⟩ :=
    maxMatching_spec _ (buildBG_inv l r es) (by rw [pL]; exact hsm)
  rw [hrun] at h'
  obtain ⟨hk, ht⟩ := Prod.mk.injEq .. ▸ Except.ok.inj h'
  rw [ht]
  have htL : t'.nLeft = l := by rw [hsg.1, pL]
  have htR : t'.nRight = r := by rw [hsg.2.1, pR]
  obtain ⟨ha', hpu', hpv', hvm', hmfa'⟩ := hinv'
  refine ⟨getMatchingPairs_sorted t', ?_, ?_⟩
  · intro p
    rw [getMatchingPairs_mem, htL]
  · intro p hp
    rw [getMatchingPairs_mem] at hp
    obtain ⟨h1, h2, h3, h4⟩ := hp
    have hadj : t'.pairU p.1 ∈ t'.adj p.1 := hmfa' p.1 h1 h2 h3
    have hb := ha' p.1 (t'.pairU p.1) hadj
    refine ⟨h1, by rw [← htL]; exact h2, by rw [h4]; exact hb.1,
      by rw [h4, ← htR]; exact hb.2, ?_⟩
    rw [h4, ← hsg.2.2]
    exact hadj

theorem claim_C7_witness :
    getMatchingPairs (buildBG 2 2 [(1, 1), (1, 2), (2, 1)]) = [] ∧
    (getMatchingPairs
      (((maxMatching (buildBG 2 2 [(1, 1), (1, 2), (2, 1)])).toOption.getD
        (0, mkBG 0 0)).2)).Pairwise (fun p q => p.1 < q.1) :=
  ⟨(claim_C7 2 2 [(1, 1), (1, 2), (2, 1)] (by decide)).1,
    ((claim_C7 2 2 [(1, 1), (1, 2), (2, 1)] (by decide)).2 2
      (((maxMatching (buildBG 2 2 [(1, 1), (1, 2), (2, 1)])).toOption.getD
        (0, mkBG 0 0)).2) rfl).1⟩

/-- C8: adding one more valid edge before the computation can only keep or
increase the returned maximum matching size. -/
theorem claim_C8 (l r : Nat) (es : List (Int × Int)) (u v : Int)
    (hsm : l + 1 < INF) (k₁ : Nat) (t₁ : BG) (k₂ : Nat) (t₂ : BG)
    (h1 : maxMatching (buildBG l r es) = .ok (k₁, t₁))
    (h2 : maxMatching (buildBG l r (es ++ [(u, v)])) = .ok (k₂, t₂)) :
    k₁ ≤ k₂ :=
  maxMatching_mono l r es u v hsm k₁ t₁ k₂ t₂ h1 h2

theorem claim_C8_witness :
    maxMatching (buildBG 1 1 ([] : List (Int × Int))) =
      .ok (0, ((maxMatching (buildBG 1 1 ([] : List (Int × Int)))).toOption.getD
        (0, mkBG 0 0)).2) ∧
    maxMatching (buildBG 1 1 (([] : List (Int × Int)) ++ [(1, 1)])) =
      .ok (1, ((maxMatching (buildBG 1 1
        (([] : List (Int × Int)) ++ [(1, 1)]))).toOption.getD (0, mkBG 0 0)).2) ∧
    (0 : Nat) ≤ 1 :=
  by
  have e1 : maxMatching (buildBG 1 1 ([] : List (Int × Int))) =
      .ok (0, ((maxMatching (buildBG 1 1 ([] : List (Int × Int)))).toOption.getD
        (0, mkBG 0 0)).2) := rfl
  have e2 : maxMatching (buildBG 1 1 (([] : List (Int × Int)) ++ [(1, 1)])) =
      .ok (1, ((maxMatching (buildBG 1 1
        (([] : List (Int × Int)) ++ [(1, 1)]))).toOption.getD (0, mkBG 0 0)).2) := rfl
  exact ⟨e1, e2, claim_C8 1 1 [] 1 1 (by decide) 0
    (((maxMatching (buildBG 1 1 ([] : List (Int × Int)))).toOption.getD
      (0, mkBG 0 0)).2) 1
    (((maxMatching (buildBG 1 1
      (([] : List (Int × Int)) ++ [(1, 1)]))).toOption.getD (0, mkBG 0 0)).2)
    e1 e2⟩

/-- C9: on every reachable engine whose part size stays below the sentinel,
every finite layer assigned by a layering pass is at most `leftCount + 1` and
strictly below the `INF` sentinel. -/
theorem claim_C9 (g : BG) (hr : Reachable g) (hsm : g.nLeft + 1 < INF)
    (b : Bool) (g' : BG) (hbfs : bfs g = .ok (b, g')) :
    ∀ x, x ≤ g.nLeft → g'.dist x ≠ INF →
      g'.dist x < INF ∧ g'.dist x ≤ g.nLeft + 1 := by
  obtain ⟨ha, hpu, hpv⟩ := reachable_ranges g hr
  obtain ⟨_, _, _, hdb⟩ := bfs_run g hpv (fun a b hb => (ha a b hb).2) b g' hbfs
  intro x hx hne
  have := hdb x hx hne
  constructor <;> omega

theorem claim_C9_witness :
    (((bfs (buildBG 1 1 [(1, 1)])).toOption.getD (true, mkBG 0 0)).2).dist 1 <
      INF ∧
    (((bfs (buildBG 1 1 [(1, 1)])).toOption.getD (true, mkBG 0 0)).2).dist 1 ≤
      (buildBG 1 1 [(1, 1)]).nLeft + 1 :=
  claim_C9 (buildBG 1 1 [(1, 1)]) (buildBG_reachable 1 1 [(1, 1)]) (by decide)
    true (((bfs (buildBG 1 1 [(1, 1)])).toOption.getD (true, mkBG 0 0)).2) rfl 1
    (by decide) (by decide)

/-- C10: on every reachable engine, no container access of the layering pass,
the augmenting search, or the full computation falls out of bounds: the `oob`
branch of the bounds-checked indexing is unreachable. -/
theorem claim_C10 (g : BG) (hr : Reachable g) :
    maxMatching g ≠ .error HkErr.oob ∧ bfs g ≠ .error HkErr.oob ∧
    ∀ fuel u, u ≤ g.nLeft → dfsGo fuel u g ≠ .error HkErr.oob := by
  obtain ⟨ha, hpu, hpv⟩ := reachable_ranges g hr
  have ha2 : ∀ a b, b ∈ g.adj a → b ≤ g.nRight := fun a b hb => (ha a b hb).2
  refine ⟨?_, ?_, ?_⟩
  · rcases maxMatching_noOob g ha2 hpu hpv with ⟨k, g', h, _⟩ | h
    · rw [h]
      intro hc
      cases hc
    · rw [h]
      intro hc
      cases Except.error.inj hc
  · rcases bfs_noOob g ha2 hpv with ⟨b, g', h, _⟩ | h
    · rw [h]
      intro hc
      cases hc
    · rw [h]
      intro hc
      cases Except.error.inj hc
  · intro fuel u hu
    rcases dfsGo_noOob fuel u g ha2 hpu hpv hu with ⟨b, g', h, _⟩ | h
    · rw [h]
      intro hc
      cases hc
    · rw [h]
      intro hc
      cases Except.error.inj hc

theorem claim_C10_witness :
    maxMatching (buildBG 1 1 [(1, 1)]) ≠ .error HkErr.oob :=
  (claim_C10 (buildBG 1 1 [(1, 1)]) (buildBG_reachable 1 1 [(1, 1)])).1

end HK
